import Mathlib

/-!
Verification development for the core of the omniscidb chunk-storage layer and
result-set reduction engine.

The development shallowly embeds three subsystems:

* the date-in-days encoder (`DataMgr/DateDaysEncoder.h`), at its concrete
  instantiation `T = int64` seconds, `V = int32` days;
* the epoch-versioned paged chunk buffer (`DataMgr/FileMgr/FileBuffer.cpp`);
* the pairwise result-set reduction contract, whose reference semantics is the
  `ResultSetEmulator` of `Tests/ResultSetTest.cpp`.

Machine integers are embedded as `Int` with explicit bounds where overflow
matters; fallible code returns `Except`; buffer state is passed explicitly.
Helpers that live in repository files not shipped under `src/` (DateConverters,
the overflow validator, FileMgr's page allocator, the reduction entry point)
are modelled from the specification and marked `Modelled from the spec:` in
their doc comments.
-/

namespace OmniSci

/-! ## Integer bounds -/

def I64_MAX : Int := 2 ^ 63 - 1

def I64_MIN : Int := -(2 ^ 63)

def I32_MAX : Int := 2 ^ 31 - 1

def I32_MIN : Int := -(2 ^ 31)

def kSecsPerDay : Int := 86400

/-! ## Date-in-days encoder (`DataMgr/DateDaysEncoder.h`, `T = int64`, `V = int32`) -/

/-- Modelled from the spec: `DateConverters::get_epoch_days_from_seconds`
(`Shared/DateConverters.h` is not under `src/`).  The spec, §4.3: the value is
"converted by integer flooring toward negative infinity
(`epoch_days = floor(epoch_seconds / 86400)`)". -/
def get_epoch_days_from_seconds (seconds : Int) : Int :=
  Int.fdiv seconds kSecsPerDay

/-- Modelled from the spec: `DateConverters::get_epoch_seconds_from_days`
(not under `src/`): "days re-expanded back to seconds at midnight". -/
def get_epoch_seconds_from_days (days : Int) : Int :=
  days * kSecsPerDay

/-- Modelled from the spec: `date_days_overflow_validator_.validate` (declared
in the missing `DataMgr/Encoder.h`).  Spec §4.3: non-null inputs "are validated
against the representable day range", and §3: "`V::MIN` is the sentinel null in
the stored domain; it is never produced from a non-null input (overflow
validation rejects inputs that would collide)".  Hence a seconds value is valid
iff its floored day count fits `int32` without hitting the sentinel. -/
def dateDaysInRange (seconds : Int) : Bool :=
  decide (I32_MIN < get_epoch_days_from_seconds seconds ∧
          get_epoch_days_from_seconds seconds ≤ I32_MAX)

/-- Statistics state of `DateDaysEncoder<int64_t, int32_t>`: `num_elems_`
(inherited from `Encoder`), `dataMin`, `dataMax`, `has_nulls`. -/
structure DateDaysEncoderState where
  numElems : Nat
  dataMin : Int
  dataMax : Int
  has_nulls : Bool
deriving Repr, DecidableEq

/-- The constructor `DateDaysEncoder::DateDaysEncoder`: `dataMin` starts at
`std::numeric_limits<T>::max()`, `dataMax` at `std::numeric_limits<T>::min()`,
`has_nulls` at `false` (`num_elems_` starts at 0). -/
def initEncoder : DateDaysEncoderState :=
  { numElems := 0, dataMin := I64_MAX, dataMax := I64_MIN, has_nulls := false }

inductive EncoderErr where
  | OverflowError
deriving Repr, DecidableEq

/-- `DateDaysEncoder::encodeDataAndUpdateStats`.  The null test of the source
compares the *unencoded* `int64` input against `std::numeric_limits<V>::min()`,
i.e. against `I32_MIN`; on that branch the value is stored via
`static_cast<V>(unencoded_data)` (the identity on `I32_MIN`) and `has_nulls` is
set.  Otherwise the validator runs, the value is floored to days, and the
statistics are updated from the round-tripped seconds. -/
def encodeDataAndUpdateStats (s : DateDaysEncoderState) (unencoded : Int) :
    Except EncoderErr (Int × DateDaysEncoderState) :=
  if unencoded = I32_MIN then
    Except.ok (unencoded, { s with has_nulls := true })
  else if dateDaysInRange unencoded then
    let encoded := get_epoch_days_from_seconds unencoded
    let data := get_epoch_seconds_from_days encoded
    Except.ok (encoded, { s with dataMax := max s.dataMax data,
                                 dataMin := min s.dataMin data })
  else
    Except.error EncoderErr.OverflowError

/-- The encoding loop of `DateDaysEncoder::appendData` (non-replicating):
each input is transcoded by `encodeDataAndUpdateStats` in order. -/
def encodeList (s : DateDaysEncoderState) :
    List Int → Except EncoderErr (List Int × DateDaysEncoderState)
  | [] => Except.ok ([], s)
  | t :: ts =>
    match encodeDataAndUpdateStats s t with
    | Except.error e => Except.error e
    | Except.ok (v, s1) =>
      match encodeList s1 ts with
      | Except.error e => Except.error e
      | Except.ok (vs, s2) => Except.ok (v :: vs, s2)

/-- `DateDaysEncoder::appendData` with `offset = -1` (the append path):
transcode every element, then bump `num_elems_` by the element count and hand
the encoded bytes to `buffer_->append`.  The result is the stored `int32`
stream plus the updated statistics. -/
def appendData (s : DateDaysEncoderState) (src : List Int) :
    Except EncoderErr (List Int × DateDaysEncoderState) :=
  match encodeList s src with
  | Except.error e => Except.error e
  | Except.ok (vs, s1) =>
    Except.ok (vs, { s1 with numElems := s1.numElems + src.length })

/-! Concrete sanity values used by claims C3 and C7. -/

/-- The input list of spec scenario 1, as written in the claim (last element is
`i64::MIN`). -/
def c3ClaimInputs : List Int := [0, 86399, 86400, -1, I64_MIN]

/-- The same scenario with the null sentinel that the source actually tests
for: the stored-domain minimum `I32_MIN` promoted to `int64`. -/
def c3SentinelInputs : List Int := [0, 86399, 86400, -1, I32_MIN]

/-! ## Result-set reduction

The reduction entry point (`ResultSetManager::reduce` / `ResultSetStorage::reduce`
of `QueryEngine/ResultSet.cpp`) is not shipped under `src/`; only its test
driver and golden-value emulator (`Tests/ResultSetTest.cpp`) are.  The merge
itself is therefore modelled from spec §4.7 at the perfect-hash level
(destination index = source index), over entries of expanded target slots; the
`ResultSetEmulator` aggregation functions, which *are* in `src/`, are embedded
verbatim and related to the model. -/

inductive AggKind where
  | kMIN
  | kMAX
  | kSUM
  | kCOUNT
  | kAVG
deriving DecidableEq, Repr

/-- Spec §4.5: "empty key slot = `EMPTY_KEY_64` (0x8000000000000000 for 8-byte
keys)", i.e. `int64` minimum when read as a signed value.  (The defining
header is not under `src/`.) -/
def EMPTY_KEY_64 : Int := I64_MIN

/-- Spec §3 lifecycle: value slots are initialized to the debug sentinel
`0xdeadbeef`; the fill helpers of `Tests/ResultSetTest.cpp` write the same
value into the slots of non-occupied keyed entries. -/
def kInitSentinel : Int := 0xdeadbeef

/-- Number of expanded target slots: spec §4.5, "a `kAVG` target occupies two
consecutive slots: sum then count". -/
def slotCount : List AggKind → Nat
  | [] => 0
  | AggKind.kAVG :: ts => 2 + slotCount ts
  | _ :: ts => 1 + slotCount ts

/-- One logical entry of a keyed (perfect-hash) result-set storage: a key slot
followed by the expanded target slots (8-byte layout throughout, as in the
test descriptors). -/
structure RSEntry where
  key : Int
  slots : List Int
deriving DecidableEq, Repr

/-- An entry holding the empty key. -/
def emptyEntry : RSEntry :=
  { key := EMPTY_KEY_64, slots := [] }

/-- Keyless empty-detection (spec §4.5): "A slot is empty iff all its target
values equal 0". -/
def keylessEmpty (slots : List Int) : Bool :=
  slots.all (fun v => v = 0)

/-- Single-slot combination rules of spec §4.7 step 2. -/
def combineOne (k : AggKind) (d s : Int) : Int :=
  match k with
  | AggKind.kMIN => min d s
  | AggKind.kMAX => max d s
  | _ => d + s

/-- Modelled from the spec (§4.7 step 1): the aggregation identity that
replaces an initialization-sentinel slot: "0 for SUM/COUNT; `TypeMax` for MIN;
`TypeMin` for MAX; `{0,0}` for AVG". -/
def aggIdentity : AggKind → List Int
  | AggKind.kMIN => [I64_MAX]
  | AggKind.kMAX => [I64_MIN]
  | AggKind.kAVG => [0, 0]
  | _ => [0]

def identitySlots (ts : List AggKind) : List Int :=
  (ts.map aggIdentity).flatten

/-- Modelled from the spec (§4.7 step 2): combine the expanded target slots of
two occupied entries, target by target; `kAVG` combines its two slots
component-wise. -/
def combineSlots : List AggKind → List Int → List Int → List Int
  | [], _, _ => []
  | k :: ts, ds, ss =>
    match k with
    | AggKind.kAVG =>
      match ds, ss with
      | d1 :: d2 :: ds2, s1 :: s2 :: ss2 =>
        (d1 + s1) :: (d2 + s2) :: combineSlots ts ds2 ss2
      | _, _ => []
    | _ =>
      match ds, ss with
      | d :: ds2, s :: ss2 => combineOne k d s :: combineSlots ts ds2 ss2
      | _, _ => []

/-- Modelled from the spec (§4.7): merge one source entry into the matching
destination entry of a keyed perfect-hash layout.  An unoccupied source leaves
the destination alone; an occupied source merged into an empty destination
first replaces the destination's sentinel slots by the aggregation identities
(and installs the source's key); otherwise the slots combine pairwise. -/
def reduceEntry (ts : List AggKind) (dst src : RSEntry) : RSEntry :=
  if src.key = EMPTY_KEY_64 then dst
  else if dst.key = EMPTY_KEY_64 then
    { key := src.key, slots := combineSlots ts (identitySlots ts) src.slots }
  else
    { dst with slots := combineSlots ts dst.slots src.slots }

/-- Modelled from the spec (§4.7): pairwise reduction of two equally-shaped
keyed perfect-hash storages; the destination index equals the source index. -/
def reduce (ts : List AggKind) (a b : List RSEntry) : List RSEntry :=
  List.zipWith (reduceEntry ts) a b

/-- Modelled from the spec (§4.7): the keyless variant; occupancy is decided
by keyless empty-detection and the initialization sentinel is 0. -/
def reduceEntryKeyless (ts : List AggKind) (dst src : List Int) : List Int :=
  if keylessEmpty src then dst
  else if keylessEmpty dst then combineSlots ts (identitySlots ts) src
  else combineSlots ts dst src

/-- Modelled from the spec (§4.7): keyless pairwise reduction. -/
def reduceKeyless (ts : List AggKind) (a b : List (List Int)) : List (List Int) :=
  List.zipWith (reduceEntryKeyless ts) a b

/-! Golden-value aggregation of `ResultSetEmulator` (`Tests/ResultSetTest.cpp`):
`rs1_groups[i]` / `rs2_groups[i]` say whether group `i` is present in each
input, `rs1_values[i]` / `rs2_values[i]` are its generated values. -/

/-- `ResultSetEmulator::rseAggregateKMIN`. -/
def rseAggregateKMIN (g1 g2 : Bool) (v1 v2 : Int) : Int :=
  if g1 && g2 then min v1 v2
  else if g1 then v1
  else if g2 then v2
  else 0

/-- `ResultSetEmulator::rseAggregateKMAX`. -/
def rseAggregateKMAX (g1 g2 : Bool) (v1 v2 : Int) : Int :=
  if g1 && g2 then max v1 v2
  else if g1 then v1
  else if g2 then v2
  else 0

/-- `ResultSetEmulator::rseAggregateKSUM`. -/
def rseAggregateKSUM (g1 g2 : Bool) (v1 v2 : Int) : Int :=
  (if g1 then v1 else 0) + (if g2 then v2 else 0)

/-- `ResultSetEmulator::rseAggregateKCOUNT`. -/
def rseAggregateKCOUNT (g1 g2 : Bool) (v1 v2 : Int) : Int :=
  (if g1 then v1 else 0) + (if g2 then v2 else 0)

/-- `ResultSetEmulator::mergeResultSets`, occupancy part: group `j` is in the
reduced set iff `rs1_groups[j] || rs2_groups[j]`. -/
def mergeResultSetsGroups (g1 g2 : List Bool) : List Bool :=
  List.zipWith (fun x y => x || y) g1 g2

/-- A keyed entry as the emulator builds it: occupied groups carry the key and
the given slots, unoccupied groups carry `EMPTY_KEY_64` and sentinel slots. -/
def emuEntry (ts : List AggKind) (g : Bool) (k : Int) (slots : List Int) : RSEntry :=
  if g then { key := k, slots := slots }
  else { key := EMPTY_KEY_64, slots := List.replicate (slotCount ts) kInitSentinel }

/-- All slot values within the signed 64-bit range. -/
def slotsBounded (l : List Int) : Prop :=
  ∀ v ∈ l, I64_MIN ≤ v ∧ v ≤ I64_MAX

/-- Well-formed keyed entry: correctly many expanded slots, `int64`-bounded
values, and unoccupied entries normalized to sentinel slots. -/
def WFEntry (ts : List AggKind) (e : RSEntry) : Prop :=
  e.slots.length = slotCount ts ∧ slotsBounded e.slots ∧
  (e.key = EMPTY_KEY_64 → e.slots = List.replicate (slotCount ts) kInitSentinel)

def WFStorage (ts : List AggKind) (l : List RSEntry) : Prop :=
  ∀ e ∈ l, WFEntry ts e

/-- Perfect-hash key alignment: two equally-shaped storages agree on the key
of every index occupied in both (the key is a function of the slot index). -/
def alignedKeys (a b : List RSEntry) : Prop :=
  ∀ i : Nat, (a.getD i emptyEntry).key ≠ EMPTY_KEY_64 →
    (b.getD i emptyEntry).key ≠ EMPTY_KEY_64 →
    (a.getD i emptyEntry).key = (b.getD i emptyEntry).key

/-! ## FileBuffer (`DataMgr/FileMgr/FileBuffer.cpp`)

State is passed explicitly; the page contents live in `store`, a list of
physical-page payloads indexed by allocation order (the page-file split into
`fileId`/`pageNum` is irrelevant to the claims, so a physical page is one
allocation index).  Header writes are recorded as events in `headers`; page
payload bytes are modelled directly.  `FileMgr` (not under `src/`) contributes
only its page allocator and the current epoch: the allocator is modelled from
the spec with an oracle `fresh` for the unspecified content of a fresh page,
and the epoch is passed to each operation as the C++ reads `fm_->epoch()`. -/

/-- One header record written by `FileBuffer::writeHeader`: the physical page
it was written to, the `pageId` and `epoch` words, and whether the
`writeMetadata` flag was set (which makes the source compute the file offset
with `METADATA_PAGE_SIZE`). -/
structure HeaderRec where
  physPage : Nat
  pageId : Int
  epoch : Int
  asMetadata : Bool
deriving DecidableEq, Repr

/-- FileBuffer state.  `multiPages` is the version history per logical page,
each version a pair `(epoch, physical page)` with the newest last, mirroring
the parallel vectors `epochs[]` / `pageVersions[]` of `MultiPage`. -/
structure FB where
  pageSize : Nat
  reservedHeaderSize : Nat
  multiPages : List (List (Int × Nat))
  metadataPages : List (Int × Nat)
  sizeB : Nat
  store : List (List Int)
  headers : List HeaderRec
  isDirty : Bool
  isAppended : Bool
  isUpdated : Bool
deriving DecidableEq, Repr

def FB.pageDataSize (fb : FB) : Nat := fb.pageSize - fb.reservedHeaderSize

/-- `FileBuffer::calcHeaderBuffer`: `(chunkKey.size() + 3) * sizeof(int)`,
rounded up to the next multiple of `headerBufferOffset_ = 32`. -/
def calcHeaderBuffer (keyLen : Nat) : Nat :=
  let rhs := (keyLen + 3) * 4
  if rhs % 32 = 0 then rhs else rhs + (32 - rhs % 32)

/-- The first `FileBuffer` constructor: a fresh buffer with no pages. -/
def mkFB (pageSize keyLen : Nat) : FB :=
  { pageSize := pageSize, reservedHeaderSize := calcHeaderBuffer keyLen,
    multiPages := [], metadataPages := [], sizeB := 0, store := [], headers := [],
    isDirty := false, isAppended := false, isUpdated := false }

/-- Payload bytes of a physical page. -/
def payloadOf (fb : FB) (p : Nat) : List Int := fb.store.getD p []

/-- Overwrite `bytes.length` bytes at `off` within a payload. -/
def overwriteSeg (l : List Int) (off : Nat) (bytes : List Int) : List Int :=
  l.take off ++ bytes ++ l.drop (off + bytes.length)

/-- `FileInfo::write` restricted to one page's payload region. -/
def writePayload (fb : FB) (p off : Nat) (bytes : List Int) : FB :=
  { fb with store := fb.store.set p (overwriteSeg (fb.store.getD p []) off bytes) }

/-- `FileInfo::read` restricted to one page's payload region: returns the
bytes that are actually there (short if the region runs out). -/
def readSeg (l : List Int) (off n : Nat) : List Int := (l.drop off).take n

/-- Modelled from the spec: `FileMgr::requestFreePage` (`FileMgr` is not under
`src/`; spec §4.2).  Returns a free physical page; its content is unspecified
(spec §4.4: gap pages "contain unspecified payload"), so the model draws the
initial payload of the n-th allocated page from the oracle `fresh`, padded or
truncated to exactly `pageDataSize` bytes. -/
def requestFreePage (fresh : Nat → List Int) (fb : FB) : FB :=
  let raw := fresh fb.store.length
  let payload := raw.take fb.pageDataSize ++
    List.replicate (fb.pageDataSize - raw.length) 0
  { fb with store := fb.store ++ [payload] }

/-- The physical page `requestFreePage` hands out for state `fb`: the next
allocation index. -/
def nextPhys (fb : FB) : Nat := fb.store.length

/-- `MultiPage::current` of a logical page: the newest `(epoch, page)` pair. -/
def currentVersion (fb : FB) (pageNum : Nat) : Int × Nat :=
  (fb.multiPages.getD pageNum []).getLastD (0, 0)

def currentPhys (fb : FB) (pageNum : Nat) : Nat := (currentVersion fb pageNum).2

/-- `multiPages_[pageNum].epochs.back()`. -/
def lastEpoch (fb : FB) (pageNum : Nat) : Int := (currentVersion fb pageNum).1

/-- `FileBuffer::writeHeader`: record the header words written for `page`. -/
def writeHeader (fb : FB) (physPage : Nat) (pageId : Int) (epoch : Int)
    (asMetadata : Bool) : FB :=
  { fb with headers := fb.headers ++ [⟨physPage, pageId, epoch, asMetadata⟩] }

/-- `FileBuffer::addNewMultiPage`: request a free page (it is `nextPhys fb`)
and append a fresh one-version `MultiPage` holding it at the given epoch. -/
def addNewMultiPage (fresh : Nat → List Int) (epoch : Int) (fb : FB) : FB :=
  let fb1 := requestFreePage fresh fb
  { fb1 with multiPages := fb1.multiPages ++ [[(epoch, nextPhys fb)]] }

/-- The allocation loop shared by `FileBuffer::reserve` and the gap loop of
`FileBuffer::write`: allocate `count` new logical pages starting at index
`pageNum`, writing each page's header at the given epoch. -/
def reservePages (fresh : Nat → List Int) (epoch : Int) :
    Nat → Nat → FB → FB
  | _, 0, fb => fb
  | pageNum, count + 1, fb =>
    reservePages fresh epoch (pageNum + 1) count
      (writeHeader (addNewMultiPage fresh epoch fb) (nextPhys fb) pageNum epoch false)

/-- `FileBuffer::reserve`: ensure `ceil(numBytes / pageSize_)` logical pages
exist (the source divides by `pageSize_`, not by the payload size);
`size_` is not changed. -/
def reserve (fresh : Nat → List Int) (numBytes : Nat) (epoch : Int) (fb : FB) : FB :=
  let numPagesRequested := (numBytes + fb.pageSize - 1) / fb.pageSize
  reservePages fresh epoch fb.multiPages.length
    (numPagesRequested - fb.multiPages.length) fb

/-- One iteration of the page loop of `FileBuffer::append`: a page past
`initialNumPages` is allocated (header written), otherwise the current
version is written in place; the slice written into the first page starts at
`startPageOffset`. -/
def appendStep (fresh : Nat → List Int) (startPage startPageOffset initialNumPages : Nat)
    (epoch : Int) (pageNum : Nat) (src : List Int) (fb : FB) : FB :=
  let off := if pageNum = startPage then startPageOffset else 0
  let m := min (fb.pageDataSize - off) src.length
  if initialNumPages ≤ pageNum then
    writePayload (writeHeader (addNewMultiPage fresh epoch fb) (nextPhys fb)
      pageNum epoch false) (nextPhys fb) off (src.take m)
  else
    writePayload fb (currentPhys fb pageNum) off (src.take m)

/-- The page loop of `FileBuffer::append`: `count` pages starting at
`pageNum`. -/
def appendLoop (fresh : Nat → List Int) (startPage startPageOffset initialNumPages : Nat)
    (epoch : Int) : Nat → Nat → List Int → FB → FB
  | _, 0, _, fb => fb
  | pageNum, count + 1, src, fb =>
    let off := if pageNum = startPage then startPageOffset else 0
    let m := min (fb.pageDataSize - off) src.length
    appendLoop fresh startPage startPageOffset initialNumPages epoch
      (pageNum + 1) count (src.drop m)
      (appendStep fresh startPage startPageOffset initialNumPages epoch pageNum src fb)

/-- `FileBuffer::append` (CPU source): write `src` at offset `size_`, growing
`size_` and allocating pages past the current end; marks the buffer appended
and dirty. -/
def append (fresh : Nat → List Int) (src : List Int) (epoch : Int) (fb : FB) : FB :=
  let fb0 := { fb with isDirty := true, isAppended := true }
  let pds := fb0.pageDataSize
  let startPage := fb0.sizeB / pds
  let startPageOffset := fb0.sizeB % pds
  let numPagesToWrite := (src.length + startPageOffset + pds - 1) / pds
  let initialNumPages := fb0.multiPages.length
  let fb1 := { fb0 with sizeB := fb0.sizeB + src.length }
  appendLoop fresh startPage startPageOffset initialNumPages epoch
    startPage numPagesToWrite src fb1

/-- `FileBuffer::copyPage`: read `numBytes` at payload offset `offset` of the
source page and write them at the same offset of the destination page. -/
def copyPage (fb : FB) (srcPhys dstPhys numBytes offset : Nat) : FB :=
  writePayload fb dstPhys offset (readSeg (payloadOf fb srcPhys) offset numBytes)

/-- Append a new `(epoch, page)` version to logical page `pageNum`. -/
def pushVersion (fb : FB) (pageNum : Nat) (epoch : Int) (p : Nat) : FB :=
  { fb with multiPages :=
      fb.multiPages.set pageNum ((fb.multiPages.getD pageNum []) ++ [(epoch, p)]) }

/-- The checkpoint-tail header of `FileBuffer::write`: on the last page of a
growing write the source rewrites a header on the page just written, with
`pageId 0`, the newest epoch of logical page 0, and the `writeMetadata` flag
set. -/
def tailHeader (startPage numPagesToWrite : Nat) (tempIsAppended : Bool)
    (pageNum physPage : Nat) (fb : FB) : FB :=
  if tempIsAppended ∧ pageNum = startPage + numPagesToWrite - 1 then
    writeHeader fb physPage 0 (lastEpoch fb 0) true
  else fb

/-- One iteration of the page loop of `FileBuffer::write`.  Three cases per
page, as in the source: a page past `initialNumPages` is allocated with a
header; an existing page whose newest epoch lags the current epoch gets a
fresh physical page appended as a new version — copying the pre-offset bytes
when the write is partial at the start of the first page, and (the source's
second copy condition, kept verbatim) copying tail bytes only when
`pageNum = startPage + numPagesToWrite`, an index the loop never reaches —
otherwise the current version is written in place. -/
def writeStep (fresh : Nat → List Int)
    (startPage startPageOffset numPagesToWrite initialNumPages : Nat)
    (epoch : Int) (tempIsAppended : Bool) (pageNum : Nat) (src : List Int)
    (fb : FB) : FB :=
  let pds := fb.pageDataSize
  let off := if pageNum = startPage then startPageOffset else 0
  let m := min (pds - off) src.length
  if initialNumPages ≤ pageNum then
    tailHeader startPage numPagesToWrite tempIsAppended pageNum (nextPhys fb)
      (writePayload (writeHeader (addNewMultiPage fresh epoch fb) (nextPhys fb)
        pageNum epoch false) (nextPhys fb) off (src.take m))
  else if lastEpoch fb pageNum < epoch then
    let lastPhys := currentPhys fb pageNum
    let p := nextPhys fb
    let fbb := pushVersion (requestFreePage fresh fb) pageNum epoch p
    let fbc := if pageNum = startPage ∧ 0 < startPageOffset then
        copyPage fbb lastPhys p startPageOffset 0 else fbb
    let fbd := if pageNum = startPage + numPagesToWrite ∧ 0 < src.length then
        copyPage fbc lastPhys p (pds - src.length) src.length else fbc
    tailHeader startPage numPagesToWrite tempIsAppended pageNum p
      (writePayload (writeHeader fbd p pageNum epoch false) p off (src.take m))
  else
    tailHeader startPage numPagesToWrite tempIsAppended pageNum
      (currentPhys fb pageNum)
      (writePayload fb (currentPhys fb pageNum) off (src.take m))

/-- The page loop of `FileBuffer::write`: `count` pages starting at
`pageNum`. -/
def writeLoop (fresh : Nat → List Int)
    (startPage startPageOffset numPagesToWrite initialNumPages : Nat)
    (epoch : Int) (tempIsAppended : Bool) : Nat → Nat → List Int → FB → FB
  | _, 0, _, fb => fb
  | pageNum, count + 1, src, fb =>
    let off := if pageNum = startPage then startPageOffset else 0
    let m := min (fb.pageDataSize - off) src.length
    writeLoop fresh startPage startPageOffset numPagesToWrite initialNumPages epoch
      tempIsAppended (pageNum + 1) count (src.drop m)
      (writeStep fresh startPage startPageOffset numPagesToWrite initialNumPages epoch
        tempIsAppended pageNum src fb)

/-- `FileBuffer::write` (CPU source): point update at `offset`, with
copy-on-write per page when the current version predates the epoch; marks
dirty, updated when `offset < size_`, appended (growing `size_`) when
`offset + numBytes > size_`; allocates pages for any gap before `startPage`. -/
def write (fresh : Nat → List Int) (src : List Int) (offset : Nat) (epoch : Int)
    (fb : FB) : FB :=
  let tempIsAppended := decide (fb.sizeB < offset + src.length)
  let fb2 : FB := { fb with
    isDirty := true,
    isUpdated := if offset < fb.sizeB then true else fb.isUpdated,
    isAppended := if fb.sizeB < offset + src.length then true else fb.isAppended,
    sizeB := if fb.sizeB < offset + src.length then offset + src.length else fb.sizeB }
  let pds := fb2.pageDataSize
  let startPage := offset / pds
  let startPageOffset := offset % pds
  let numPagesToWrite := (src.length + startPageOffset + pds - 1) / pds
  let initialNumPages := fb2.multiPages.length
  let fb3 := reservePages fresh epoch initialNumPages
    (startPage - initialNumPages) fb2
  writeLoop fresh startPage startPageOffset numPagesToWrite initialNumPages epoch
    tempIsAppended startPage numPagesToWrite src fb3

/-- `FileBuffer::writeMetadata`: request a fresh metadata page, write its
header with `pageId = -1` at the given epoch, and record the page in
`metadataPages` (the serialized metadata payload itself plays no role in the
claims). -/
def writeMetadata (fresh : Nat → List Int) (epoch : Int) (fb : FB) : FB :=
  let fb2 := writeHeader (requestFreePage fresh fb) (nextPhys fb) (-1) epoch true
  { fb2 with metadataPages := fb2.metadataPages ++ [(epoch, nextPhys fb)] }

/-- Spec §8: the concatenation of the `current()` payloads of `multi_pages`,
truncated to `size_` — the byte stream a reader sees. -/
def logicalBytes (fb : FB) : List Int :=
  ((fb.multiPages.map (fun mp => fb.store.getD (mp.getLastD (0, 0)).2 [])).flatten).take
    fb.sizeB

inductive MemoryLevel where
  | DISK_LEVEL
  | CPU_LEVEL
  | GPU_LEVEL
deriving DecidableEq, Repr

inductive FBErr where
  | UnsupportedBufferType
  | CheckFailed
  | ShortRead
deriving DecidableEq, Repr

/-- `readForThread` (static helper in FileBuffer.cpp): read `count` logical
pages starting at `pageNum`, honouring `off` only on the first page, with
`bytesLeft` to read; the trailing `CHECK(bytesLeft == 0)` is the error case. -/
def readForThread (fb : FB) : Nat → Nat → Nat → Nat → Except FBErr (List Int)
  | _, 0, _, bytesLeft =>
    if bytesLeft = 0 then Except.ok [] else Except.error FBErr.CheckFailed
  | pageNum, count + 1, off, bytesLeft =>
    let pds := fb.pageDataSize
    let m := min (pds - off) bytesLeft
    let chunk := readSeg (payloadOf fb (currentPhys fb pageNum)) off m
    match readForThread fb (pageNum + 1) count 0 (bytesLeft - chunk.length) with
    | Except.error e => Except.error e
    | Except.ok rest => Except.ok (chunk ++ rest)

/-- The reader-thread page partition of `FileBuffer::read`: with more pages
than threads each thread gets `numPagesToRead / numThreads` pages and the
remainder is spread one extra page over the first threads; otherwise one
thread per page. -/
def threadSpans (numPagesToRead numReaderThreads : Nat) : List Nat :=
  if numReaderThreads < numPagesToRead then
    let npt := numPagesToRead / numReaderThreads
    let extra := numPagesToRead - numReaderThreads * npt
    List.replicate extra (npt + 1) ++ List.replicate (numReaderThreads - extra) npt
  else
    List.replicate numPagesToRead 1

/-- The per-thread dispatch of `FileBuffer::read`: thread `i` owns a
contiguous span of pages and the budget
`min(span * pageDataSize - off, remaining)` (with `off` only for the first
thread); results are concatenated in thread order, which is also what the
parallel original produces since each thread owns a disjoint slice of the
destination. -/
def readThreadsLoop (fb : FB) : List Nat → Nat → Nat → Nat → Except FBErr (List Int)
  | [], _, _, _ => Except.ok []
  | span :: spans, cursor, off, remaining =>
    let pds := fb.pageDataSize
    let budget := min (span * pds - off) remaining
    match readForThread fb cursor span off budget with
    | Except.error e => Except.error e
    | Except.ok bytes =>
      match readThreadsLoop fb spans (cursor + span) 0 (remaining - budget) with
      | Except.error e => Except.error e
      | Except.ok rest => Except.ok (bytes ++ rest)

/-- `FileBuffer::read`: only a CPU destination is supported (anything else is
the fatal `UnsupportedBufferType` before any page is touched); then
`CHECK(startPage + numPagesToRead <= multiPages_.size())`, the thread
partition, and the final `CHECK(bytesRead == numBytes)`. -/
def read (fb : FB) (numBytes offset : Nat) (dstBufferType : MemoryLevel)
    (numReaderThreads : Nat) : Except FBErr (List Int) :=
  if dstBufferType ≠ MemoryLevel.CPU_LEVEL then
    Except.error FBErr.UnsupportedBufferType
  else
    let pds := fb.pageDataSize
    let startPage := offset / pds
    let startPageOffset := offset % pds
    let numPagesToRead := (numBytes + startPageOffset + pds - 1) / pds
    if fb.multiPages.length < startPage + numPagesToRead then
      Except.error FBErr.CheckFailed
    else
      match readThreadsLoop fb (threadSpans numPagesToRead numReaderThreads)
          startPage startPageOffset numBytes with
      | Except.error e => Except.error e
      | Except.ok bytes =>
        if bytes.length = numBytes then Except.ok bytes
        else Except.error FBErr.ShortRead

/-! ### FileBuffer invariants and claim-specific states -/

/-- Well-formedness used by the read claim: a positive payload size, every
stored payload of exactly `pageDataSize` bytes, and every logical page's
current version pointing into the store. -/
def WFBuffer (fb : FB) : Prop :=
  0 < fb.pageDataSize ∧
  (∀ p, p < fb.store.length → (fb.store.getD p []).length = fb.pageDataSize) ∧
  (∀ i, i < fb.multiPages.length → currentPhys fb i < fb.store.length)

instance (fb : FB) : Decidable (WFBuffer fb) := by
  unfold WFBuffer
  infer_instance

/-- All version epochs recorded in a `multiPages` vector at most `e`. -/
def EpochsLEmp (mps : List (List (Int × Nat))) (e : Int) : Prop :=
  ∀ mp ∈ mps, ∀ v ∈ mp, v.1 ≤ e

/-- All recorded version epochs at most `e`. -/
def EpochsLE (fb : FB) (e : Int) : Prop :=
  EpochsLEmp fb.multiPages e

instance (mps : List (List (Int × Nat))) (e : Int) : Decidable (EpochsLEmp mps e) := by
  unfold EpochsLEmp
  infer_instance

instance (fb : FB) (e : Int) : Decidable (EpochsLE fb e) := by
  unfold EpochsLE
  infer_instance

/-- `B` extends `A` as a `multiPages` vector: no logical page and no page
version is lost (pages and versions are only ever appended). -/
def mpExtendsTo (A B : List (List (Int × Nat))) : Prop :=
  A.length ≤ B.length ∧ ∀ i : Nat, ∀ v ∈ A.getD i [], v ∈ B.getD i []

/-- Propositional form of the per-record header rule of claim C6: `pageId` is
−1, or names a logical page index whose version history contains the physical
page the header was written to. -/
def headerFits (mps : List (List (Int × Nat))) (rec : HeaderRec) : Prop :=
  rec.pageId = -1 ∨
  ∃ i, i < mps.length ∧ (∃ v ∈ mps.getD i [], v.2 = rec.physPage) ∧
    rec.pageId = Int.ofNat i

/-- Propositional form of `headersOkAmended` over explicit components: every
header record fits the index rule or is a checkpoint-tail rewrite, and its
epoch is bounded. -/
def HOkA (mps : List (List (Int × Nat))) (hdrs : List HeaderRec) (e : Int) : Prop :=
  ∀ rec ∈ hdrs,
    (headerFits mps rec ∨ (rec.pageId = 0 ∧ rec.asMetadata = true)) ∧ rec.epoch ≤ e

/-- Claim C6's header rule for one record: `pageId` is −1 (metadata) or equals
the index in `multi_pages` of a logical page having this physical page among
its versions. -/
def headerMatchesIndex (fb : FB) (rec : HeaderRec) : Bool :=
  rec.pageId == -1 ||
  (List.range fb.multiPages.length).any (fun i =>
    ((fb.multiPages.getD i []).any (fun v => v.2 == rec.physPage)) &&
      (rec.pageId == Int.ofNat i))

/-- Claim C6 as stated: every header record obeys the index rule and carries
an epoch at most `e`. -/
def headersOk (fb : FB) (e : Int) : Bool :=
  fb.headers.all (fun rec => headerMatchesIndex fb rec && decide (rec.epoch ≤ e))

/-- The amended header rule: the checkpoint-tail rewrite (recognizable by
`pageId = 0` with the metadata flag set) is excepted from the index rule. -/
def headersOkAmended (fb : FB) (e : Int) : Bool :=
  fb.headers.all (fun rec =>
    (headerMatchesIndex fb rec || (rec.pageId == 0 && rec.asMetadata)) &&
      decide (rec.epoch ≤ e))

/-- Fresh pages of the concrete scenarios are zero-filled. -/
def zeroFresh : Nat → List Int := fun _ => []

/-- Spec scenario 3 state: `page_size = 64`, `reserved_header_size = 32`
(chunk-key length 4), 32 bytes of `0xAA` appended at epoch 1. -/
def cowState1 : FB := append zeroFresh (List.replicate 32 0xAA) 1 (mkFB 64 4)

/-- …then 8 bytes of `0xFF` written at offset 4 at epoch 2. -/
def cowState2 : FB := write zeroFresh (List.replicate 8 0xFF) 4 2 cowState1

/-- A growing two-page write into an empty buffer at epoch 1 (40 bytes,
`page_data_size = 32`), which triggers the checkpoint-tail header rewrite on
logical page 1. -/
def tailHeaderState : FB := write zeroFresh (List.replicate 40 0xBB) 0 1 (mkFB 64 4)

instance (l : List Int) : Decidable (slotsBounded l) :=
  List.decidableBAll _ l

instance (ts : List AggKind) (e : RSEntry) : Decidable (WFEntry ts e) := by
  unfold WFEntry
  infer_instance

instance (ts : List AggKind) (l : List RSEntry) : Decidable (WFStorage ts l) := by
  unfold WFStorage
  exact List.decidableBAll _ l

/-! # Theorems -/

/-! ## Encoder helper lemmas -/

theorem fdiv_roundtrip_bounds (t : Int) :
    t - 86399 ≤ get_epoch_seconds_from_days (get_epoch_days_from_seconds t) ∧
    get_epoch_seconds_from_days (get_epoch_days_from_seconds t) ≤ t := by
  unfold get_epoch_seconds_from_days get_epoch_days_from_seconds kSecsPerDay
  rw [Int.fdiv_eq_ediv _ (by decide)]
  have h1 : 86400 * (t / 86400) + t % 86400 = t := Int.ediv_add_emod t 86400
  have h2 : 0 ≤ t % 86400 := Int.emod_nonneg t (by decide)
  have h3 : t % 86400 < 86400 := Int.emod_lt_of_pos t (by decide)
  omega

theorem encode_null_step (s : DateDaysEncoderState) :
    encodeDataAndUpdateStats s I32_MIN =
      Except.ok (I32_MIN, { s with has_nulls := true }) := by
  simp [encodeDataAndUpdateStats]

theorem encodeList_all_nulls (l : List Int) :
    ∀ s : DateDaysEncoderState, (∀ x ∈ l, x = I32_MIN) →
      encodeList s l = Except.ok (l, { s with has_nulls := s.has_nulls || !l.isEmpty }) := by
  induction l with
  | nil => intro s _; simp [encodeList]
  | cons t ts ih =>
    intro s hl
    have ht : t = I32_MIN := hl t (by simp)
    have hts : ∀ x ∈ ts, x = I32_MIN := fun x hx => hl x (by simp [hx])
    subst ht
    simp only [encodeList, encode_null_step]
    rw [ih _ hts]
    simp

/-! ## Reduction helper lemmas -/

theorem identitySlots_cons (k : AggKind) (ts : List AggKind) :
    identitySlots (k :: ts) = aggIdentity k ++ identitySlots ts := by
  simp [identitySlots]

theorem slotsBounded_cons {v : Int} {l : List Int} (h : slotsBounded (v :: l)) :
    (I64_MIN ≤ v ∧ v ≤ I64_MAX) ∧ slotsBounded l := by
  exact ⟨h v (by simp), fun w hw => h w (by simp [hw])⟩

theorem combineOne_comm (k : AggKind) (d s : Int) : combineOne k d s = combineOne k s d := by
  cases k <;> simp [combineOne, min_comm, max_comm, Int.add_comm]

theorem combineSlots_identity (ts : List AggKind) :
    ∀ ss : List Int, ss.length = slotCount ts → slotsBounded ss →
      combineSlots ts (identitySlots ts) ss = ss := by
  induction ts with
  | nil =>
    intro ss hlen _
    simp [slotCount] at hlen
    subst hlen
    rfl
  | cons k ts ih =>
    intro ss hlen hb
    cases k with
    | kAVG =>
      cases ss with
      | nil => simp [slotCount] at hlen; omega
      | cons s1 stl =>
        cases stl with
        | nil => simp [slotCount] at hlen; omega
        | cons s2 ss2 =>
          have hb1 := slotsBounded_cons hb
          have hb2 := slotsBounded_cons hb1.2
          simp only [identitySlots_cons, aggIdentity, List.cons_append, List.nil_append,
            combineSlots, Int.zero_add]
          rw [ih ss2 (by simp [slotCount] at hlen ⊢; omega) hb2.2]
    | kMIN =>
      cases ss with
      | nil => simp [slotCount] at hlen; omega
      | cons s stl =>
        have hb1 := slotsBounded_cons hb
        simp only [identitySlots_cons, aggIdentity, List.cons_append, List.nil_append,
          combineSlots, combineOne]
        rw [min_eq_right hb1.1.2, ih stl (by simp [slotCount] at hlen ⊢; omega) hb1.2]
    | kMAX =>
      cases ss with
      | nil => simp [slotCount] at hlen; omega
      | cons s stl =>
        have hb1 := slotsBounded_cons hb
        simp only [identitySlots_cons, aggIdentity, List.cons_append, List.nil_append,
          combineSlots, combineOne]
        rw [max_eq_right hb1.1.1, ih stl (by simp [slotCount] at hlen ⊢; omega) hb1.2]
    | kSUM =>
      cases ss with
      | nil => simp [slotCount] at hlen; omega
      | cons s stl =>
        have hb1 := slotsBounded_cons hb
        simp only [identitySlots_cons, aggIdentity, List.cons_append, List.nil_append,
          combineSlots, combineOne, Int.zero_add]
        rw [ih stl (by simp [slotCount] at hlen ⊢; omega) hb1.2]
    | kCOUNT =>
      cases ss with
      | nil => simp [slotCount] at hlen; omega
      | cons s stl =>
        have hb1 := slotsBounded_cons hb
        simp only [identitySlots_cons, aggIdentity, List.cons_append, List.nil_append,
          combineSlots, combineOne, Int.zero_add]
        rw [ih stl (by simp [slotCount] at hlen ⊢; omega) hb1.2]

theorem combineSlots_comm (ts : List AggKind) :
    ∀ ds ss : List Int, combineSlots ts ds ss = combineSlots ts ss ds := by
  induction ts with
  | nil => intro ds ss; rfl
  | cons k ts ih =>
    intro ds ss
    cases k with
    | kAVG =>
      cases ds with
      | nil =>
        cases ss with
        | nil => rfl
        | cons s1 stl => cases stl <;> rfl
      | cons d1 dtl =>
        cases dtl with
        | nil =>
          cases ss with
          | nil => rfl
          | cons s1 stl => cases stl <;> rfl
        | cons d2 ds2 =>
          cases ss with
          | nil => rfl
          | cons s1 stl =>
            cases stl with
            | nil => rfl
            | cons s2 ss2 =>
              simp only [combineSlots]
              rw [Int.add_comm d1 s1, Int.add_comm d2 s2, ih]
    | kMIN =>
      cases ds with
      | nil => cases ss <;> rfl
      | cons d dtl =>
        cases ss with
        | nil => rfl
        | cons s stl =>
          simp only [combineSlots]
          rw [combineOne_comm, ih]
    | kMAX =>
      cases ds with
      | nil => cases ss <;> rfl
      | cons d dtl =>
        cases ss with
        | nil => rfl
        | cons s stl =>
          simp only [combineSlots]
          rw [combineOne_comm, ih]
    | kSUM =>
      cases ds with
      | nil => cases ss <;> rfl
      | cons d dtl =>
        cases ss with
        | nil => rfl
        | cons s stl =>
          simp only [combineSlots]
          rw [combineOne_comm, ih]
    | kCOUNT =>
      cases ds with
      | nil => cases ss <;> rfl
      | cons d dtl =>
        cases ss with
        | nil => rfl
        | cons s stl =>
          simp only [combineSlots]
          rw [combineOne_comm, ih]

theorem reduceEntry_src_empty (ts : List AggKind) (dst src : RSEntry)
    (h : src.key = EMPTY_KEY_64) : reduceEntry ts dst src = dst := by
  simp [reduceEntry, h]

theorem reduceEntry_dst_empty (ts : List AggKind) (dst src : RSEntry)
    (hs : src.key ≠ EMPTY_KEY_64) (hd : dst.key = EMPTY_KEY_64)
    (hlen : src.slots.length = slotCount ts) (hb : slotsBounded src.slots) :
    reduceEntry ts dst src = src := by
  simp only [reduceEntry, hd, if_pos rfl, if_neg hs]
  rw [combineSlots_identity ts src.slots hlen hb]
  simp

theorem reduceEntry_dst_empty_raw (ts : List AggKind) (dst src : RSEntry)
    (hs : src.key ≠ EMPTY_KEY_64) (hd : dst.key = EMPTY_KEY_64) :
    reduceEntry ts dst src =
      { key := src.key, slots := combineSlots ts (identitySlots ts) src.slots } := by
  simp [reduceEntry, hs, hd]

theorem emuEntry_true (ts : List AggKind) (k : Int) (slots : List Int) :
    emuEntry ts true k slots = { key := k, slots := slots } := rfl

theorem emuEntry_false (ts : List AggKind) (k : Int) (slots : List Int) :
    emuEntry ts false k slots =
      { key := EMPTY_KEY_64, slots := List.replicate (slotCount ts) kInitSentinel } := rfl

theorem reduceEntry_both (ts : List AggKind) (dst src : RSEntry)
    (hd : dst.key ≠ EMPTY_KEY_64) (hs : src.key ≠ EMPTY_KEY_64) :
    reduceEntry ts dst src = { dst with slots := combineSlots ts dst.slots src.slots } := by
  simp [reduceEntry, hd, hs]

theorem reduceEntry_comm (ts : List AggKind) (x y : RSEntry)
    (hwx : WFEntry ts x) (hwy : WFEntry ts y)
    (hk : x.key ≠ EMPTY_KEY_64 → y.key ≠ EMPTY_KEY_64 → x.key = y.key) :
    reduceEntry ts x y = reduceEntry ts y x := by
  by_cases hx : x.key = EMPTY_KEY_64 <;> by_cases hy : y.key = EMPTY_KEY_64
  · rw [reduceEntry_src_empty ts x y hy, reduceEntry_src_empty ts y x hx]
    have ex : x = { key := x.key, slots := x.slots } := rfl
    have ey : y = { key := y.key, slots := y.slots } := rfl
    rw [ex, ey, hx, hy, hwx.2.2 hx, hwy.2.2 hy]
  · rw [reduceEntry_dst_empty ts x y hy hx hwy.1 hwy.2.1,
        reduceEntry_src_empty ts y x hx]
  · rw [reduceEntry_src_empty ts x y hy,
        reduceEntry_dst_empty ts y x hx hy hwx.1 hwx.2.1]
  · rw [reduceEntry_both ts x y hx hy, reduceEntry_both ts y x hy hx]
    have hxy := hk hx hy
    have ex : x = { key := x.key, slots := x.slots } := rfl
    simp only [RSEntry.mk.injEq]
    exact ⟨hxy, combineSlots_comm ts x.slots y.slots⟩

theorem reduce_getD (ts : List AggKind) :
    ∀ (a b : List RSEntry), a.length = b.length → ∀ i : Nat,
      (reduce ts a b).getD i emptyEntry =
        reduceEntry ts (a.getD i emptyEntry) (b.getD i emptyEntry) := by
  intro a
  induction a with
  | nil =>
    intro b hb i
    cases b with
    | nil => simp [reduce, reduceEntry, emptyEntry]
    | cons y ys => simp at hb
  | cons x xs ih =>
    intro b hb i
    cases b with
    | nil => simp at hb
    | cons y ys =>
      cases i with
      | zero => rfl
      | succ n =>
        simp only [reduce, List.zipWith_cons_cons, List.getD_cons_succ]
        exact ih ys (by simpa using hb) n

/-! ## Claim theorems: encoder -/

/-- C3, counterexample.  The claim says `appendData` preserves the null input
`T::MIN = i64::MIN` as the stored sentinel and that the scenario inputs
`[0, 86399, 86400, -1, i64::MIN]` are stored as `[0, 0, 1, -1, i32::MIN]`.
On the source, the null test compares against `std::numeric_limits<V>::min()`
(= `i32::MIN`), so `i64::MIN` misses the null branch and is rejected by the
overflow validator: the whole append fails instead of storing anything. -/
theorem c3_i64min_input_overflows :
    appendData initEncoder c3ClaimInputs = Except.error EncoderErr.OverflowError := by
  rfl

/-- C3 (amended): the null input recognised by the encoder is the
stored-domain sentinel `V::MIN = i32::MIN` (promoted to `int64`), not
`T::MIN`; it is preserved as the stored `V::MIN` and sets `has_nulls`.  For
inputs `[0, 86399, 86400, -1, i32::MIN]` the stored values are
`[0, 0, 1, -1, i32::MIN]` with `has_nulls = true`, `data_min = -86400`,
`data_max = 86400` (an input of `i64::MIN` instead raises `OverflowError`). -/
theorem c3_sentinel_null_roundtrip :
    appendData initEncoder c3SentinelInputs =
      Except.ok ([0, 0, 1, -1, I32_MIN],
        { numElems := 5, dataMin := -86400, dataMax := 86400, has_nulls := true }) := by
  rfl

/-- C7: for every non-null seconds value `t` accepted by the overflow
validator, the round-tripped seconds `s = seconds_from_days(days_from_seconds t)`
satisfy `t - 86399 ≤ s ≤ t`, and `encodeDataAndUpdateStats` updates `dataMin`
and `dataMax` from this round-tripped value `s`, not from the raw input `t`. -/
theorem c7_roundtrip_bounds_and_stats (s : DateDaysEncoderState) (t : Int)
    (hnn : t ≠ I32_MIN) (hrange : dateDaysInRange t = true) :
    t - 86399 ≤ get_epoch_seconds_from_days (get_epoch_days_from_seconds t) ∧
    get_epoch_seconds_from_days (get_epoch_days_from_seconds t) ≤ t ∧
    encodeDataAndUpdateStats s t =
      Except.ok (get_epoch_days_from_seconds t,
        { s with
            dataMax := max s.dataMax
              (get_epoch_seconds_from_days (get_epoch_days_from_seconds t)),
            dataMin := min s.dataMin
              (get_epoch_seconds_from_days (get_epoch_days_from_seconds t)) }) := by
  refine ⟨(fdiv_roundtrip_bounds t).1, (fdiv_roundtrip_bounds t).2, ?_⟩
  simp [encodeDataAndUpdateStats, hnn, hrange]

/-- C7, witness at `t = 86399` (maps to day 0, round-trips to second 0). -/
theorem c7_witness :
    (86399 : Int) - 86399 ≤ get_epoch_seconds_from_days (get_epoch_days_from_seconds 86399) ∧
    get_epoch_seconds_from_days (get_epoch_days_from_seconds 86399) ≤ 86399 ∧
    encodeDataAndUpdateStats initEncoder 86399 =
      Except.ok (get_epoch_days_from_seconds 86399,
        { initEncoder with
            dataMax := max initEncoder.dataMax
              (get_epoch_seconds_from_days (get_epoch_days_from_seconds 86399)),
            dataMin := min initEncoder.dataMin
              (get_epoch_seconds_from_days (get_epoch_days_from_seconds 86399)) }) :=
  c7_roundtrip_bounds_and_stats initEncoder 86399 (by decide) (by decide)

/-- C10: an input taking the null branch (the stored-domain sentinel) sets
`has_nulls` and leaves `dataMin`/`dataMax` untouched; consequently after
appending only nulls the statistics still hold their initial values
`dataMin = T::max`, `dataMax = T::min`. -/
theorem c10_null_branch_frame (s : DateDaysEncoderState) (t : Int) (hn : t = I32_MIN)
    (l : List Int) (hl : ∀ x ∈ l, x = I32_MIN) :
    encodeDataAndUpdateStats s t = Except.ok (t, { s with has_nulls := true }) ∧
    ∃ s2, appendData initEncoder l = Except.ok (l, s2) ∧
      s2.dataMin = I64_MAX ∧ s2.dataMax = I64_MIN ∧ s2.numElems = l.length ∧
      (l ≠ [] → s2.has_nulls = true) := by
  constructor
  · subst hn; exact encode_null_step s
  · refine ⟨{ numElems := l.length, dataMin := I64_MAX, dataMax := I64_MIN,
              has_nulls := false || !l.isEmpty }, ?_, rfl, rfl, rfl, ?_⟩
    · unfold appendData
      rw [encodeList_all_nulls l initEncoder hl]
      simp [initEncoder]
    · intro hne
      cases l with
      | nil => exact absurd rfl hne
      | cons a as => rfl

/-! ## FileBuffer helper lemmas: lists and the header invariant -/

theorem getD_mem_of_lt {α : Type} (l : List α) (n : Nat) (d : α) (h : n < l.length) :
    l.getD n d ∈ l := by
  rw [List.getD_eq_getElem l d h]
  exact List.getElem_mem h

theorem getLastD_mem {α : Type} : ∀ (l : List α) (d : α), l ≠ [] → l.getLastD d ∈ l := by
  intro l
  induction l with
  | nil => intro d h; exact absurd rfl h
  | cons a t ih =>
    intro d _
    rw [List.getLastD_cons]
    cases t with
    | nil => simp [List.getLastD]
    | cons b t2 => exact List.mem_cons_of_mem a (ih a (by simp))

theorem getD_append_left {α : Type} (A B : List α) (i : Nat) (d : α) (h : i < A.length) :
    (A ++ B).getD i d = A.getD i d := by
  simp [List.getD, List.getElem?_append_left h]

theorem getD_append_at {α : Type} (A : List α) (x d : α) :
    (A ++ [x]).getD A.length d = x := by
  simp [List.getD]

theorem getD_oob {α : Type} (l : List α) (n : Nat) (d : α) (h : l.length ≤ n) :
    l.getD n d = d :=
  List.getD_eq_default l d h

theorem getD_set_self {α : Type} (A : List α) (j : Nat) (x d : α) (h : j < A.length) :
    (A.set j x).getD j d = x := by
  simp [List.getD, List.getElem?_set_self, h]

theorem getD_set_other {α : Type} (A : List α) (i j : Nat) (x d : α) (h : i ≠ j) :
    (A.set j x).getD i d = A.getD i d := by
  simp [List.getD, List.getElem?_set_ne (Ne.symm h)]

theorem mpExtendsTo_refl (A : List (List (Int × Nat))) : mpExtendsTo A A :=
  ⟨le_refl _, fun _ _ hv => hv⟩

theorem mpExtendsTo_trans {A B C : List (List (Int × Nat))}
    (h1 : mpExtendsTo A B) (h2 : mpExtendsTo B C) : mpExtendsTo A C :=
  ⟨le_trans h1.1 h2.1, fun i v hv => h2.2 i v (h1.2 i v hv)⟩

theorem mpExtendsTo_append (A : List (List (Int × Nat))) (x : List (Int × Nat)) :
    mpExtendsTo A (A ++ [x]) := by
  refine ⟨by simp, fun i v hv => ?_⟩
  by_cases h : i < A.length
  · rw [getD_append_left A [x] i [] h]
    exact hv
  · rw [getD_oob A i [] (le_of_not_lt h)] at hv
    simp at hv

theorem mpExtendsTo_set_push (A : List (List (Int × Nat))) (j : Nat) (ver : Int × Nat) :
    mpExtendsTo A (A.set j (A.getD j [] ++ [ver])) := by
  refine ⟨by simp, fun i v hv => ?_⟩
  by_cases hij : i = j
  · subst hij
    by_cases h : i < A.length
    · rw [getD_set_self A i _ [] h]
      exact List.mem_append_left _ hv
    · rw [getD_oob A i [] (le_of_not_lt h)] at hv
      simp at hv
  · rw [getD_set_other A i j _ [] hij]
    exact hv

theorem headerFits_mono {A B : List (List (Int × Nat))} (h : mpExtendsTo A B)
    {rec : HeaderRec} (hf : headerFits A rec) : headerFits B rec := by
  cases hf with
  | inl h1 => exact Or.inl h1
  | inr h1 =>
    obtain ⟨i, hi, ⟨v, hv, hv2⟩, hid⟩ := h1
    exact Or.inr ⟨i, lt_of_lt_of_le hi h.1, ⟨v, h.2 i v hv, hv2⟩, hid⟩

theorem HOkA_mono {A B : List (List (Int × Nat))} {hdrs : List HeaderRec} {e : Int}
    (hext : mpExtendsTo A B) (h : HOkA A hdrs e) : HOkA B hdrs e := by
  intro rec hr
  obtain ⟨h1, h2⟩ := h rec hr
  exact ⟨h1.imp (headerFits_mono hext) id, h2⟩

theorem HOkA_append {A : List (List (Int × Nat))} {hdrs : List HeaderRec} {e : Int}
    (h : HOkA A hdrs e) (rec : HeaderRec)
    (hr : (headerFits A rec ∨ (rec.pageId = 0 ∧ rec.asMetadata = true)) ∧
      rec.epoch ≤ e) :
    HOkA A (hdrs ++ [rec]) e := by
  intro r hmem
  rcases List.mem_append.mp hmem with h1 | h1
  · exact h r h1
  · simp at h1
    subst h1
    exact hr

theorem EpochsLEmp_append {A : List (List (Int × Nat))} {e : Int}
    (h : EpochsLEmp A e) {x : List (Int × Nat)} (hx : ∀ v ∈ x, v.1 ≤ e) :
    EpochsLEmp (A ++ [x]) e := by
  intro mp hmp
  rcases List.mem_append.mp hmp with h1 | h1
  · exact h mp h1
  · simp at h1
    subst h1
    exact hx

theorem EpochsLEmp_getD {A : List (List (Int × Nat))} {e : Int}
    (h : EpochsLEmp A e) (i : Nat) : ∀ v ∈ A.getD i [], v.1 ≤ e := by
  by_cases hi : i < A.length
  · exact h _ (getD_mem_of_lt A i [] hi)
  · rw [getD_oob A i [] (le_of_not_lt hi)]
    simp

theorem EpochsLEmp_set_push {A : List (List (Int × Nat))} {e : Int}
    (h : EpochsLEmp A e) (j : Nat) {ver : Int × Nat} (hv : ver.1 ≤ e) :
    EpochsLEmp (A.set j (A.getD j [] ++ [ver])) e := by
  intro mp hmp
  rcases List.mem_or_eq_of_mem_set hmp with h1 | h1
  · exact h mp h1
  · subst h1
    intro v hv2
    rcases List.mem_append.mp hv2 with h2 | h2
    · exact EpochsLEmp_getD h j v h2
    · simp at h2
      subst h2
      exact hv

theorem lastEpoch_le {fb : FB} {e : Int} (h : EpochsLEmp fb.multiPages e)
    (h0 : 0 ≤ e) (i : Nat) : lastEpoch fb i ≤ e := by
  unfold lastEpoch currentVersion
  cases hmp : fb.multiPages.getD i [] with
  | nil => simpa using h0
  | cons a t =>
    have hm : (a :: t).getLastD (0, 0) ∈ a :: t := getLastD_mem _ _ (by simp)
    have h2 := EpochsLEmp_getD h i
    rw [hmp] at h2
    exact h2 _ hm

theorem headerMatchesIndex_iff (fb : FB) (rec : HeaderRec) :
    headerMatchesIndex fb rec = true ↔ headerFits fb.multiPages rec := by
  simp [headerMatchesIndex, headerFits, List.any_eq_true, List.mem_range]

theorem headersOkAmended_iff (fb : FB) (e : Int) :
    headersOkAmended fb e = true ↔ HOkA fb.multiPages fb.headers e := by
  simp [headersOkAmended, HOkA, List.all_eq_true, headerMatchesIndex_iff]

/-! ## FileBuffer helper lemmas: header invariants of the operations -/

theorem newPageInv (fresh : Nat → List Int) (e : Int) (pageNum : Nat) (fb : FB)
    (hlen : fb.multiPages.length = pageNum)
    (hH : HOkA fb.multiPages fb.headers e) (hE : EpochsLEmp fb.multiPages e) :
    (writeHeader (addNewMultiPage fresh e fb) (nextPhys fb) pageNum e false).multiPages
        = fb.multiPages ++ [[(e, nextPhys fb)]] ∧
    HOkA (writeHeader (addNewMultiPage fresh e fb) (nextPhys fb) pageNum e
        false).multiPages
      (writeHeader (addNewMultiPage fresh e fb) (nextPhys fb) pageNum e
        false).headers e ∧
    EpochsLEmp (writeHeader (addNewMultiPage fresh e fb) (nextPhys fb) pageNum e
        false).multiPages e := by
  have hmp : (writeHeader (addNewMultiPage fresh e fb) (nextPhys fb) pageNum e
      false).multiPages = fb.multiPages ++ [[(e, nextPhys fb)]] := rfl
  have hhd : (writeHeader (addNewMultiPage fresh e fb) (nextPhys fb) pageNum e
      false).headers = fb.headers ++ [⟨nextPhys fb, pageNum, e, false⟩] := rfl
  refine ⟨hmp, ?_, ?_⟩
  · rw [hmp, hhd]
    apply HOkA_append (HOkA_mono (mpExtendsTo_append _ _) hH)
    refine ⟨Or.inl (Or.inr ⟨pageNum, ?_, ?_, rfl⟩), le_refl e⟩
    · simp [hlen]
    · rw [← hlen, getD_append_at]
      exact ⟨(e, nextPhys fb), by simp, rfl⟩
  · rw [hmp]
    refine EpochsLEmp_append hE ?_
    intro v hv
    simp at hv
    subst hv
    exact le_refl e

theorem writePayload_multiPages (fb : FB) (p off : Nat) (bytes : List Int) :
    (writePayload fb p off bytes).multiPages = fb.multiPages := rfl

theorem writeHeader_multiPages (fb : FB) (p : Nat) (pid ep : Int) (md : Bool) :
    (writeHeader fb p pid ep md).multiPages = fb.multiPages := rfl

theorem copyPage_multiPages (fb : FB) (sp dp n o : Nat) :
    (copyPage fb sp dp n o).multiPages = fb.multiPages := rfl

theorem requestFreePage_multiPages (fresh : Nat → List Int) (fb : FB) :
    (requestFreePage fresh fb).multiPages = fb.multiPages := rfl

theorem pushVersion_multiPages (fb : FB) (j : Nat) (ep : Int) (p : Nat) :
    (pushVersion fb j ep p).multiPages =
      fb.multiPages.set j (fb.multiPages.getD j [] ++ [(ep, p)]) := rfl

theorem tailHeader_multiPages (sp npw : Nat) (tempApp : Bool) (pageNum phys : Nat)
    (fb : FB) :
    (tailHeader sp npw tempApp pageNum phys fb).multiPages = fb.multiPages := by
  unfold tailHeader
  split_ifs <;> rfl

/-- The checkpoint-tail header preserves the amended header invariant: the
record it may add is tail-form and carries an epoch already recorded for
logical page 0. -/
theorem HOkA_tailHeader (sp npw : Nat) (tempApp : Bool) (pageNum phys : Nat)
    (fb : FB) (e : Int)
    (hH : HOkA fb.multiPages fb.headers e) (hE : EpochsLEmp fb.multiPages e)
    (h0 : 0 ≤ e) :
    HOkA (tailHeader sp npw tempApp pageNum phys fb).multiPages
      (tailHeader sp npw tempApp pageNum phys fb).headers e := by
  unfold tailHeader
  split_ifs
  · exact HOkA_append hH _ ⟨Or.inr ⟨rfl, rfl⟩, lastEpoch_le hE h0 0⟩
  · exact hH

theorem EpochsLEmp_tailHeader (sp npw : Nat) (tempApp : Bool) (pageNum phys : Nat)
    (fb : FB) (e : Int) (hE : EpochsLEmp fb.multiPages e) :
    EpochsLEmp (tailHeader sp npw tempApp pageNum phys fb).multiPages e := by
  rw [tailHeader_multiPages]
  exact hE

theorem appendStep_inv (fresh : Nat → List Int) (sp spo initial : Nat) (e : Int)
    (pageNum : Nat) (src : List Int) (fb : FB)
    (hlen : fb.multiPages.length = max initial pageNum)
    (hH : HOkA fb.multiPages fb.headers e) (hE : EpochsLEmp fb.multiPages e) :
    (appendStep fresh sp spo initial e pageNum src fb).multiPages.length =
        max initial (pageNum + 1) ∧
    HOkA (appendStep fresh sp spo initial e pageNum src fb).multiPages
      (appendStep fresh sp spo initial e pageNum src fb).headers e ∧
    EpochsLEmp (appendStep fresh sp spo initial e pageNum src fb).multiPages e := by
  simp only [appendStep]
  by_cases hc : initial ≤ pageNum
  · rw [if_pos hc]
    have hlen2 : fb.multiPages.length = pageNum := by omega
    obtain ⟨hmp, hH2, hE2⟩ := newPageInv fresh e pageNum fb hlen2 hH hE
    refine ⟨?_, hH2, ?_⟩
    · rw [writePayload_multiPages, hmp]
      simp [hlen2]
      omega
    · rw [writePayload_multiPages]
      exact hE2
  · rw [if_neg hc]
    refine ⟨?_, hH, hE⟩
    rw [writePayload_multiPages, hlen]
    omega

theorem writeStep_inv (fresh : Nat → List Int) (sp spo npw initial : Nat) (e : Int)
    (tempApp : Bool) (pageNum : Nat) (src : List Int) (fb : FB)
    (hlen : fb.multiPages.length = max initial pageNum)
    (hH : HOkA fb.multiPages fb.headers e) (hE : EpochsLEmp fb.multiPages e)
    (h0 : 0 ≤ e) :
    (writeStep fresh sp spo npw initial e tempApp pageNum src fb).multiPages.length =
        max initial (pageNum + 1) ∧
    HOkA (writeStep fresh sp spo npw initial e tempApp pageNum src fb).multiPages
      (writeStep fresh sp spo npw initial e tempApp pageNum src fb).headers e ∧
    EpochsLEmp
      (writeStep fresh sp spo npw initial e tempApp pageNum src fb).multiPages e := by
  simp only [writeStep]
  by_cases hc : initial ≤ pageNum
  · rw [if_pos hc]
    have hlen2 : fb.multiPages.length = pageNum := by omega
    obtain ⟨hmp, hH2, hE2⟩ := newPageInv fresh e pageNum fb hlen2 hH hE
    refine ⟨?_, ?_, ?_⟩
    · rw [tailHeader_multiPages, writePayload_multiPages, hmp]
      simp [hlen2]
      omega
    · apply HOkA_tailHeader <;> first | exact hH2 | exact hE2 | exact h0
    · apply EpochsLEmp_tailHeader
      exact hE2
  · rw [if_neg hc]
    by_cases hcow : lastEpoch fb pageNum < e
    · rw [if_pos hcow]
      have hpn : pageNum < fb.multiPages.length := by omega
      have hH3 : HOkA
          (fb.multiPages.set pageNum
            (fb.multiPages.getD pageNum [] ++ [(e, nextPhys fb)]))
          (fb.headers ++ [⟨nextPhys fb, pageNum, e, false⟩]) e := by
        apply HOkA_append (HOkA_mono (mpExtendsTo_set_push _ _ _) hH)
        refine ⟨Or.inl (Or.inr ⟨pageNum, ?_, ?_, rfl⟩), le_refl e⟩
        · simpa using hpn
        · rw [getD_set_self _ _ _ _ hpn]
          exact ⟨(e, nextPhys fb), by simp, rfl⟩
      have hE3 : EpochsLEmp
          (fb.multiPages.set pageNum
            (fb.multiPages.getD pageNum [] ++ [(e, nextPhys fb)])) e :=
        EpochsLEmp_set_push hE pageNum (le_refl e)
      split_ifs
      all_goals refine ⟨?_, ?_, ?_⟩
      all_goals first
        | (rw [tailHeader_multiPages, writePayload_multiPages, writeHeader_multiPages]
           first
             | rw [copyPage_multiPages, copyPage_multiPages, pushVersion_multiPages,
                 requestFreePage_multiPages]
             | rw [copyPage_multiPages, pushVersion_multiPages,
                 requestFreePage_multiPages]
             | rw [pushVersion_multiPages, requestFreePage_multiPages]
           first
             | (simp [List.length_set]; omega)
             | exact hE3)
        | (apply HOkA_tailHeader <;> first | exact hH3 | exact hE3 | exact h0)
    · rw [if_neg hcow]
      refine ⟨?_, ?_, ?_⟩
      · rw [tailHeader_multiPages, writePayload_multiPages, hlen]
        omega
      · apply HOkA_tailHeader <;> first | exact hH | exact hE | exact h0
      · apply EpochsLEmp_tailHeader
        exact hE

theorem reservePages_inv (fresh : Nat → List Int) (e : Int) :
    ∀ (count pageNum : Nat) (fb : FB),
      fb.multiPages.length = pageNum →
      HOkA fb.multiPages fb.headers e → EpochsLEmp fb.multiPages e →
      (reservePages fresh e pageNum count fb).multiPages.length = pageNum + count ∧
      HOkA (reservePages fresh e pageNum count fb).multiPages
        (reservePages fresh e pageNum count fb).headers e ∧
      EpochsLEmp (reservePages fresh e pageNum count fb).multiPages e := by
  intro count
  induction count with
  | zero =>
    intro pageNum fb h1 h2 h3
    exact ⟨by simpa [reservePages] using h1, by simpa [reservePages] using h2,
      by simpa [reservePages] using h3⟩
  | succ n ih =>
    intro pageNum fb h1 h2 h3
    simp only [reservePages]
    obtain ⟨hmp, hH2, hE2⟩ := newPageInv fresh e pageNum fb h1 h2 h3
    have hlen2 : (writeHeader (addNewMultiPage fresh e fb) (nextPhys fb) pageNum e
        false).multiPages.length = pageNum + 1 := by
      rw [hmp]
      simp [h1]
    obtain ⟨i1, i2, i3⟩ := ih (pageNum + 1) _ hlen2 hH2 hE2
    exact ⟨by rw [i1]; omega, i2, i3⟩

theorem appendLoop_inv (fresh : Nat → List Int) (sp spo initial : Nat) (e : Int) :
    ∀ (count pageNum : Nat) (src : List Int) (fb : FB),
      fb.multiPages.length = max initial pageNum →
      HOkA fb.multiPages fb.headers e → EpochsLEmp fb.multiPages e →
      (appendLoop fresh sp spo initial e pageNum count src fb).multiPages.length =
          max initial (pageNum + count) ∧
      HOkA (appendLoop fresh sp spo initial e pageNum count src fb).multiPages
        (appendLoop fresh sp spo initial e pageNum count src fb).headers e ∧
      EpochsLEmp (appendLoop fresh sp spo initial e pageNum count src fb).multiPages
        e := by
  intro count
  induction count with
  | zero =>
    intro pageNum src fb h1 h2 h3
    exact ⟨by simpa [appendLoop] using h1, by simpa [appendLoop] using h2,
      by simpa [appendLoop] using h3⟩
  | succ n ih =>
    intro pageNum src fb h1 h2 h3
    simp only [appendLoop]
    obtain ⟨s1, s2, s3⟩ := appendStep_inv fresh sp spo initial e pageNum src fb h1 h2 h3
    obtain ⟨i1, i2, i3⟩ := ih (pageNum + 1) _ _ s1 s2 s3
    exact ⟨by rw [i1]; congr 1; omega, i2, i3⟩

theorem writeLoop_inv (fresh : Nat → List Int) (sp spo npw initial : Nat) (e : Int)
    (tempApp : Bool) (h0 : 0 ≤ e) :
    ∀ (count pageNum : Nat) (src : List Int) (fb : FB),
      fb.multiPages.length = max initial pageNum →
      HOkA fb.multiPages fb.headers e → EpochsLEmp fb.multiPages e →
      (writeLoop fresh sp spo npw initial e tempApp pageNum count src
          fb).multiPages.length = max initial (pageNum + count) ∧
      HOkA (writeLoop fresh sp spo npw initial e tempApp pageNum count src
          fb).multiPages
        (writeLoop fresh sp spo npw initial e tempApp pageNum count src fb).headers
        e ∧
      EpochsLEmp (writeLoop fresh sp spo npw initial e tempApp pageNum count src
          fb).multiPages e := by
  intro count
  induction count with
  | zero =>
    intro pageNum src fb h1 h2 h3
    exact ⟨by simpa [writeLoop] using h1, by simpa [writeLoop] using h2,
      by simpa [writeLoop] using h3⟩
  | succ n ih =>
    intro pageNum src fb h1 h2 h3
    simp only [writeLoop]
    obtain ⟨s1, s2, s3⟩ := writeStep_inv fresh sp spo npw initial e tempApp pageNum
      src fb h1 h2 h3 h0
    obtain ⟨i1, i2, i3⟩ := ih (pageNum + 1) _ _ s1 s2 s3
    exact ⟨by rw [i1]; congr 1; omega, i2, i3⟩

/-- `size_` within the allocated page capacity puts `append`'s start page
within the allocated range. -/
theorem startPage_le_of_size (fb : FB)
    (hsz : fb.sizeB ≤ fb.multiPages.length * fb.pageDataSize) :
    fb.sizeB / fb.pageDataSize ≤ fb.multiPages.length := by
  rcases Nat.eq_zero_or_pos fb.pageDataSize with h | h
  · simp [h]
  · calc fb.sizeB / fb.pageDataSize
        ≤ fb.multiPages.length * fb.pageDataSize / fb.pageDataSize :=
          Nat.div_le_div_right hsz
      _ = fb.multiPages.length := Nat.mul_div_cancel _ h

theorem reserve_headers (fresh : Nat → List Int) (numBytes : Nat) (e : Int) (fb : FB)
    (hH : HOkA fb.multiPages fb.headers e) (hE : EpochsLEmp fb.multiPages e) :
    HOkA (reserve fresh numBytes e fb).multiPages (reserve fresh numBytes e fb).headers
      e ∧
    EpochsLEmp (reserve fresh numBytes e fb).multiPages e := by
  simp only [reserve]
  obtain ⟨g1, g2, g3⟩ := reservePages_inv fresh e
    ((numBytes + fb.pageSize - 1) / fb.pageSize - fb.multiPages.length)
    fb.multiPages.length fb rfl hH hE
  exact ⟨g2, g3⟩

theorem append_headers (fresh : Nat → List Int) (src : List Int) (e : Int) (fb : FB)
    (hsz : fb.sizeB ≤ fb.multiPages.length * fb.pageDataSize)
    (hH : HOkA fb.multiPages fb.headers e) (hE : EpochsLEmp fb.multiPages e) :
    HOkA (append fresh src e fb).multiPages (append fresh src e fb).headers e ∧
    EpochsLEmp (append fresh src e fb).multiPages e := by
  simp only [append]
  have hsp : fb.sizeB / fb.pageDataSize ≤ fb.multiPages.length :=
    startPage_le_of_size fb hsz
  obtain ⟨g1, g2, g3⟩ := appendLoop_inv fresh (fb.sizeB / fb.pageDataSize)
    (fb.sizeB % fb.pageDataSize) fb.multiPages.length e
    ((src.length + fb.sizeB % fb.pageDataSize + fb.pageDataSize - 1) /
      fb.pageDataSize)
    (fb.sizeB / fb.pageDataSize) src
    { fb with isDirty := true, isAppended := true, sizeB := fb.sizeB + src.length }
    (by simp; omega) hH hE
  exact ⟨g2, g3⟩

theorem write_headers (fresh : Nat → List Int) (src : List Int) (offset : Nat)
    (e : Int) (fb : FB) (h0 : 0 ≤ e)
    (hH : HOkA fb.multiPages fb.headers e) (hE : EpochsLEmp fb.multiPages e) :
    HOkA (write fresh src offset e fb).multiPages (write fresh src offset e fb).headers
      e ∧
    EpochsLEmp (write fresh src offset e fb).multiPages e := by
  simp only [write]
  obtain ⟨g1, g2, g3⟩ := reservePages_inv fresh e
    (offset / fb.pageDataSize - fb.multiPages.length) fb.multiPages.length
    { fb with
      isDirty := true,
      isUpdated := if offset < fb.sizeB then true else fb.isUpdated,
      isAppended := if fb.sizeB < offset + src.length then true else fb.isAppended,
      sizeB := if fb.sizeB < offset + src.length then offset + src.length
        else fb.sizeB }
    rfl hH hE
  obtain ⟨w1, w2, w3⟩ := writeLoop_inv fresh (offset / fb.pageDataSize)
    (offset % fb.pageDataSize)
    ((src.length + offset % fb.pageDataSize + fb.pageDataSize - 1) / fb.pageDataSize)
    fb.multiPages.length e (decide (fb.sizeB < offset + src.length)) h0
    ((src.length + offset % fb.pageDataSize + fb.pageDataSize - 1) / fb.pageDataSize)
    (offset / fb.pageDataSize) src _ (by rw [g1]; omega) g2 g3
  exact ⟨w2, w3⟩

theorem writeMetadata_headers (fresh : Nat → List Int) (e : Int) (fb : FB)
    (hH : HOkA fb.multiPages fb.headers e) (hE : EpochsLEmp fb.multiPages e) :
    HOkA (writeMetadata fresh e fb).multiPages (writeMetadata fresh e fb).headers e ∧
    EpochsLEmp (writeMetadata fresh e fb).multiPages e := by
  refine ⟨?_, hE⟩
  exact HOkA_append hH _ ⟨Or.inl (Or.inl rfl), le_refl e⟩

/-! ## Claim theorems: FileBuffer write path (C4, C5) -/

/-- C4, at the failing input (spec scenario 3): append 32 bytes of `0xAA` at
epoch 1, bump the epoch, `write` 8 bytes of `0xFF` at offset 4.  A fresh
physical page is appended as a new version at epoch 2 and the pre-offset
bytes are copied, as claimed — but the post-write bytes (offsets 12…31) are
*not* copied from the old version: the source's tail-copy condition compares
`pageNum` against `startPage + numPagesToWrite`, one past the last loop
index, so it can never fire and the tail keeps the fresh page's content. -/
theorem c4_cow_tail_not_copied :
    (cowState2.multiPages.getD 0 []).map Prod.fst = [1, 2] ∧
    readSeg (payloadOf cowState2 (currentPhys cowState2 0)) 0 4 =
      List.replicate 4 0xAA ∧
    payloadOf cowState2 (currentPhys cowState2 0) =
      List.replicate 4 0xAA ++ List.replicate 8 0xFF ++ List.replicate 20 0 ∧
    payloadOf cowState2 (currentPhys cowState2 0) ≠
      List.replicate 4 0xAA ++ List.replicate 8 0xFF ++ List.replicate 20 0xAA := by
  refine ⟨rfl, rfl, rfl, ?_⟩
  decide

/-- C5, at the failing input: after the copy-on-write of scenario 3, the
concatenation of current payloads truncated to `size_` no longer equals the
logical byte stream written (`0xAA` at 0…3 and 12…31, `0xFF` at 4…11): bytes
12…31 read back as the fresh page's content instead of `0xAA`. -/
theorem c5_readback_mismatch :
    logicalBytes cowState2 =
      List.replicate 4 0xAA ++ List.replicate 8 0xFF ++ List.replicate 20 0 ∧
    logicalBytes cowState2 ≠
      List.replicate 4 0xAA ++ List.replicate 8 0xFF ++ List.replicate 20 0xAA := by
  refine ⟨rfl, ?_⟩
  decide

/-! ## Claim theorems: FileBuffer headers (C6) -/

/-- C6, counterexample.  A growing 40-byte write into an empty buffer with
32-byte payloads allocates logical pages 0 and 1 and then rewrites, on the
*last written page* (page 1), a checkpoint-tail header carrying `pageId 0` —
so not every header written for the buffer has `page_id` equal to −1 or to
the page's index in `multi_pages`. -/
theorem c6_tail_header_breaks_index_rule :
    headersOk tailHeaderState 1 = false ∧
    tailHeaderState.headers.getD 2 ⟨0, 0, 0, false⟩ =
      { physPage := 1, pageId := 0, epoch := 1, asMetadata := true } ∧
    currentPhys tailHeaderState 1 = 1 := by
  exact ⟨rfl, rfl, rfl⟩

/-- C6 (amended): after each of `reserve`, `append`, `write` and
`write_metadata` on a buffer whose header log already satisfies the rule and
whose recorded epochs do not exceed the current epoch `e ≥ 0` (with `size_`
within the allocated page capacity for `append`), every header written for
the buffer carries `page_id` −1 (metadata) or the page's index in
`multi_pages` — *except* the checkpoint-tail header rewritten on the last
page of a growing write, which always carries `page_id 0` and the metadata
flag regardless of that page's index — and every header's epoch is at most
`e`, the `FileMgr` epoch at the time of the write. -/
theorem c6_amended_headers (fresh : Nat → List Int) (fb : FB) (e : Int)
    (h0 : 0 ≤ e) (hH : headersOkAmended fb e = true) (hE : EpochsLE fb e)
    (hsz : fb.sizeB ≤ fb.multiPages.length * fb.pageDataSize) :
    (∀ numBytes, headersOkAmended (reserve fresh numBytes e fb) e = true) ∧
    (∀ src, headersOkAmended (append fresh src e fb) e = true) ∧
    (∀ src offset, headersOkAmended (write fresh src offset e fb) e = true) ∧
    headersOkAmended (writeMetadata fresh e fb) e = true := by
  have hH2 : HOkA fb.multiPages fb.headers e := (headersOkAmended_iff fb e).mp hH
  have hE2 : EpochsLEmp fb.multiPages e := hE
  refine ⟨?_, ?_, ?_, ?_⟩
  · intro numBytes
    exact (headersOkAmended_iff _ e).mpr (reserve_headers fresh numBytes e fb hH2 hE2).1
  · intro src
    exact (headersOkAmended_iff _ e).mpr (append_headers fresh src e fb hsz hH2 hE2).1
  · intro src offset
    exact (headersOkAmended_iff _ e).mpr
      (write_headers fresh src offset e fb h0 hH2 hE2).1
  · exact (headersOkAmended_iff _ e).mpr (writeMetadata_headers fresh e fb hH2 hE2).1

/-- C6, witness: the growing write producing `tailHeaderState` from an empty
buffer keeps the amended rule (its tail header is tail-form with epoch 1),
and a later in-range write at epoch 2 keeps it as well. -/
theorem c6_witness :
    headersOkAmended (write zeroFresh (List.replicate 8 0xFF) 4 2 cowState1) 2 =
      true :=
  (c6_amended_headers zeroFresh cowState1 2 (by decide) (by rfl) (by decide)
    (by decide)).2.2.1 (List.replicate 8 0xFF) 4

/-! ## FileBuffer helper lemmas: the read path -/

theorem payload_len (fb : FB) (hwf : WFBuffer fb) (i : Nat)
    (hi : i < fb.multiPages.length) :
    (payloadOf fb (currentPhys fb i)).length = fb.pageDataSize :=
  hwf.2.1 _ (hwf.2.2 i hi)

theorem readSeg_length (l : List Int) (off n : Nat) :
    (readSeg l off n).length = min n (l.length - off) := by
  simp [readSeg]

theorem readForThread_ok (fb : FB) (hwf : WFBuffer fb) :
    ∀ (count pageNum off budget : Nat),
      pageNum + count ≤ fb.multiPages.length →
      off < fb.pageDataSize →
      budget ≤ count * fb.pageDataSize - off →
      ∃ bytes, readForThread fb pageNum count off budget = Except.ok bytes ∧
        bytes.length = budget := by
  intro count
  induction count with
  | zero =>
    intro pageNum off budget _ _ hbud
    have : budget = 0 := by omega
    subst this
    exact ⟨[], by simp [readForThread], rfl⟩
  | succ n ih =>
    intro pageNum off budget hpages hoff hbud
    have hplen : (payloadOf fb (currentPhys fb pageNum)).length = fb.pageDataSize :=
      payload_len fb hwf pageNum (by omega)
    have hm : (readSeg (payloadOf fb (currentPhys fb pageNum)) off
        (min (fb.pageDataSize - off) budget)).length =
        min (fb.pageDataSize - off) budget := by
      rw [readSeg_length, hplen]
      omega
    have hmul : (n + 1) * fb.pageDataSize = n * fb.pageDataSize + fb.pageDataSize := by
      ring
    obtain ⟨rest, hrest, hrlen⟩ := ih (pageNum + 1) 0
      (budget - (min (fb.pageDataSize - off) budget))
      (by omega) hwf.1 (by omega)
    refine ⟨readSeg (payloadOf fb (currentPhys fb pageNum)) off
      (min (fb.pageDataSize - off) budget) ++ rest, ?_, ?_⟩
    · simp only [readForThread, hm, hrest]
    · simp only [List.length_append, hm, hrlen]
      omega

theorem threadSpans_sum (P nrt : Nat) (h : 1 ≤ nrt) : (threadSpans P nrt).sum = P := by
  unfold threadSpans
  by_cases hc : nrt < P
  · rw [if_pos hc]
    have hmod := Nat.div_add_mod P nrt
    have hlt : P % nrt < nrt := Nat.mod_lt _ (by omega)
    have e1 : P - nrt * (P / nrt) = P % nrt := by omega
    rw [List.sum_append, List.sum_replicate, List.sum_replicate, smul_eq_mul,
      smul_eq_mul, e1]
    have h2 : P % nrt * (P / nrt + 1) = P % nrt * (P / nrt) + P % nrt := by ring
    have h3 : (nrt - P % nrt) * (P / nrt) =
        nrt * (P / nrt) - P % nrt * (P / nrt) :=
      Nat.sub_mul nrt (P % nrt) (P / nrt)
    have h4 : P % nrt * (P / nrt) ≤ nrt * (P / nrt) :=
      Nat.mul_le_mul_right _ (le_of_lt hlt)
    rw [h2, h3]
    omega
  · rw [if_neg hc]
    rw [List.sum_replicate, smul_eq_mul]
    omega

theorem readThreadsLoop_ok (fb : FB) (hwf : WFBuffer fb) :
    ∀ (spans : List Nat) (cursor off remaining : Nat),
      cursor + spans.sum ≤ fb.multiPages.length →
      off < fb.pageDataSize →
      remaining ≤ spans.sum * fb.pageDataSize - off →
      ∃ bytes, readThreadsLoop fb spans cursor off remaining = Except.ok bytes ∧
        bytes.length = remaining := by
  intro spans
  induction spans with
  | nil =>
    intro cursor off remaining _ _ hrem
    have : remaining = 0 := by simpa using hrem
    subst this
    exact ⟨[], rfl, rfl⟩
  | cons span spans ih =>
    intro cursor off remaining hcur hoff hrem
    have hsum : (span :: spans).sum = span + spans.sum := by simp
    have hmul : (span + spans.sum) * fb.pageDataSize =
        span * fb.pageDataSize + spans.sum * fb.pageDataSize := by ring
    rw [hsum] at hcur
    rw [hsum, hmul] at hrem
    obtain ⟨bytes1, hb1, hl1⟩ := readForThread_ok fb hwf span cursor off
      (min (span * fb.pageDataSize - off) remaining) (by omega) hoff (by omega)
    obtain ⟨bytes2, hb2, hl2⟩ := ih (cursor + span) 0
      (remaining - min (span * fb.pageDataSize - off) remaining)
      (by omega) hwf.1 (by omega)
    refine ⟨bytes1 ++ bytes2, ?_, ?_⟩
    · simp only [readThreadsLoop, hb1, hb2]
    · simp only [List.length_append, hl1, hl2]
      omega

theorem ceil_mul_ge (a pds : Nat) (h : 0 < pds) :
    a ≤ pds * ((a + pds - 1) / pds) := by
  have hmod := Nat.div_add_mod (a + pds - 1) pds
  have hlt : (a + pds - 1) % pds < pds := Nat.mod_lt _ h
  omega

/-! ## Claim theorems: FileBuffer read (C9) -/

/-- C9: `FileBuffer::read` with a destination memory level other than CPU
fails with `UnsupportedBufferType` before touching any page, whatever the
buffer state; with a CPU destination on a well-formed buffer whose requested
range lies within the allocated pages (and at least one reader thread
configured), it runs to completion, returning exactly `numBytes` bytes. -/
theorem c9_read_level_and_completion (fb : FB) (numBytes offset : Nat)
    (lvl : MemoryLevel) (nrt : Nat) :
    (lvl ≠ MemoryLevel.CPU_LEVEL →
      read fb numBytes offset lvl nrt = Except.error FBErr.UnsupportedBufferType) ∧
    (lvl = MemoryLevel.CPU_LEVEL → WFBuffer fb → 1 ≤ nrt →
      offset / fb.pageDataSize +
          (numBytes + offset % fb.pageDataSize + fb.pageDataSize - 1) /
            fb.pageDataSize ≤ fb.multiPages.length →
      ∃ bytes, read fb numBytes offset lvl nrt = Except.ok bytes ∧
        bytes.length = numBytes) := by
  constructor
  · intro h
    simp [read, h]
  · intro hl hwf hnrt hrange
    subst hl
    have hpds : 0 < fb.pageDataSize := hwf.1
    have hsum := threadSpans_sum
      ((numBytes + offset % fb.pageDataSize + fb.pageDataSize - 1) / fb.pageDataSize)
      nrt hnrt
    have hoff : offset % fb.pageDataSize < fb.pageDataSize := Nat.mod_lt _ hpds
    have hcap := ceil_mul_ge (numBytes + offset % fb.pageDataSize) fb.pageDataSize hpds
    have hmulc : ((numBytes + offset % fb.pageDataSize + fb.pageDataSize - 1) /
          fb.pageDataSize) * fb.pageDataSize =
        fb.pageDataSize * ((numBytes + offset % fb.pageDataSize + fb.pageDataSize - 1) /
          fb.pageDataSize) := Nat.mul_comm _ _
    obtain ⟨bytes, hb, hlen⟩ := readThreadsLoop_ok fb hwf
      (threadSpans
        ((numBytes + offset % fb.pageDataSize + fb.pageDataSize - 1) / fb.pageDataSize)
        nrt)
      (offset / fb.pageDataSize) (offset % fb.pageDataSize) numBytes
      (by rw [hsum]; omega) hoff (by rw [hsum, hmulc]; omega)
    refine ⟨bytes, ?_, hlen⟩
    simp only [read, ne_eq, not_true_eq_false, if_false, if_neg (by omega : ¬
      fb.multiPages.length < offset / fb.pageDataSize +
        (numBytes + offset % fb.pageDataSize + fb.pageDataSize - 1) / fb.pageDataSize),
      hb]
    rw [if_pos hlen]

/-- C9, witness: a GPU-destination read fails with `UnsupportedBufferType`;
the same in-range read to CPU completes with all 32 bytes. -/
theorem c9_witness :
    read cowState2 32 0 MemoryLevel.GPU_LEVEL 3 =
      Except.error FBErr.UnsupportedBufferType ∧
    ∃ bytes, read cowState2 32 0 MemoryLevel.CPU_LEVEL 3 = Except.ok bytes ∧
      bytes.length = 32 :=
  ⟨(c9_read_level_and_completion cowState2 32 0 MemoryLevel.GPU_LEVEL 3).1 (by decide),
   (c9_read_level_and_completion cowState2 32 0 MemoryLevel.CPU_LEVEL 3).2 rfl
     (by decide) (by decide) (by decide)⟩

/-! ## Claim theorems: result-set reduction -/

/-- C1, counterexample.  In keyless mode an entry is occupied iff some target
slot is non-zero, so merging a SUM slot holding 5 with one holding −5 yields
an all-zero entry: both inputs are occupied at index 0, yet the reduction of
the two keyless storages is not occupied there — the occupied set of the
reduction is not the union of the occupied sets. -/
theorem c1_keyless_cancellation :
    keylessEmpty [(5 : Int)] = false ∧ keylessEmpty [(-5 : Int)] = false ∧
    reduceKeyless [AggKind.kSUM] [[(5 : Int)]] [[(-5 : Int)]] = [[0]] ∧
    keylessEmpty ((reduceKeyless [AggKind.kSUM] [[(5 : Int)]] [[(-5 : Int)]]).getD 0 []) =
      true := by
  exact ⟨rfl, rfl, rfl, rfl⟩

/-- C1 (amended): for keyed layouts the occupied set of `reduce [a, b]` is
exactly the union of the occupied sets of `a` and `b` — in particular groups
present only in the second input appear in the reduced set.  In keyless mode
an entry occupied in exactly one input keeps that input's slots (hence stays
occupied), but an entry occupied in both inputs carries the combined slots,
which may be all zero and then read as unoccupied. -/
theorem c1_occupied_union (ts : List AggKind) (a b : List RSEntry)
    (hab : a.length = b.length) :
    (∀ i : Nat,
        ((reduce ts a b).getD i emptyEntry).key ≠ EMPTY_KEY_64 ↔
          ((a.getD i emptyEntry).key ≠ EMPTY_KEY_64 ∨
           (b.getD i emptyEntry).key ≠ EMPTY_KEY_64)) ∧
    (∀ sa sb : List Int,
        (keylessEmpty sb = true → reduceEntryKeyless ts sa sb = sa) ∧
        (keylessEmpty sa = true → keylessEmpty sb = false →
          sb.length = slotCount ts → slotsBounded sb →
          reduceEntryKeyless ts sa sb = sb) ∧
        (keylessEmpty sa = false → keylessEmpty sb = false →
          reduceEntryKeyless ts sa sb = combineSlots ts sa sb)) := by
  constructor
  · intro i
    rw [reduce_getD ts a b hab i]
    by_cases hv : (b.getD i emptyEntry).key = EMPTY_KEY_64
    · rw [reduceEntry_src_empty ts _ _ hv]
      constructor
      · exact fun h => Or.inl h
      · rintro (h | h)
        · exact h
        · exact absurd hv h
    · by_cases hu : (a.getD i emptyEntry).key = EMPTY_KEY_64
      · rw [reduceEntry_dst_empty_raw ts _ _ hv hu]
        constructor
        · exact fun h => Or.inr h
        · rintro (h | h)
          · exact absurd hu h
          · exact h
      · rw [reduceEntry_both ts _ _ hu hv]
        exact Iff.intro (fun h => Or.inl h) (fun _ => hu)
  · intro sa sb
    refine ⟨fun hb => by simp [reduceEntryKeyless, hb], fun ha hb hlen hbd => ?_,
      fun ha hb => by simp [reduceEntryKeyless, ha, hb]⟩
    simp only [reduceEntryKeyless, hb, Bool.false_eq_true, if_false, ha, if_true]
    exact combineSlots_identity ts sb hlen hbd

/-- C1, witness: a two-entry perfect-hash pair where the second input
contributes a group absent from the first; that group is occupied after the
reduction. -/
theorem c1_witness :
    ((reduce [AggKind.kMIN]
        [{ key := 2, slots := [5] }, { key := EMPTY_KEY_64, slots := [kInitSentinel] }]
        [{ key := EMPTY_KEY_64, slots := [kInitSentinel] }, { key := 4, slots := [9] }]).getD
          1 emptyEntry).key ≠ EMPTY_KEY_64 ↔
      ((([{ key := 2, slots := [5] },
          { key := EMPTY_KEY_64, slots := [kInitSentinel] }] : List RSEntry).getD 1
            emptyEntry).key ≠ EMPTY_KEY_64 ∨
       (([{ key := EMPTY_KEY_64, slots := [kInitSentinel] },
          { key := 4, slots := [9] }] : List RSEntry).getD 1 emptyEntry).key ≠
          EMPTY_KEY_64) :=
  (c1_occupied_union [AggKind.kMIN]
    [{ key := 2, slots := [5] }, { key := EMPTY_KEY_64, slots := [kInitSentinel] }]
    [{ key := EMPTY_KEY_64, slots := [kInitSentinel] }, { key := 4, slots := [9] }]
    rfl).1 1

/-- C2: for an entry occupied in both inputs the slots combine per aggregation
kind (MIN → minimum, MAX → maximum, SUM/COUNT → sum, AVG → component-wise sum
of its `(sum, count)` pair); for an entry occupied in exactly one input the
reduced entry equals that input's entry.  The single-target instances agree
with the golden-value functions `rseAggregateKMIN` … `rseAggregateKCOUNT` of
`ResultSetEmulator` whenever at least one input holds the group. -/
theorem c2_combination_rules (ts : List AggKind) :
    (∀ dst src : RSEntry, src.key = EMPTY_KEY_64 → reduceEntry ts dst src = dst) ∧
    (∀ dst src : RSEntry, dst.key = EMPTY_KEY_64 → src.key ≠ EMPTY_KEY_64 →
        src.slots.length = slotCount ts → slotsBounded src.slots →
        reduceEntry ts dst src = src) ∧
    (∀ dst src : RSEntry, dst.key ≠ EMPTY_KEY_64 → src.key ≠ EMPTY_KEY_64 →
        reduceEntry ts dst src =
          { dst with slots := combineSlots ts dst.slots src.slots }) ∧
    (∀ sa ca sb cb ka kb : Int, ka ≠ EMPTY_KEY_64 → kb ≠ EMPTY_KEY_64 →
        reduceEntry [AggKind.kAVG] { key := ka, slots := [sa, ca] }
            { key := kb, slots := [sb, cb] } =
          { key := ka, slots := [sa + sb, ca + cb] }) ∧
    (∀ g1 g2 : Bool, (g1 || g2) = true → ∀ k1 k2 v1 v2 : Int,
        k1 ≠ EMPTY_KEY_64 → k2 ≠ EMPTY_KEY_64 →
        I64_MIN ≤ v1 → v1 ≤ I64_MAX → I64_MIN ≤ v2 → v2 ≤ I64_MAX →
        (reduceEntry [AggKind.kMIN] (emuEntry [AggKind.kMIN] g1 k1 [v1])
            (emuEntry [AggKind.kMIN] g2 k2 [v2])).slots =
          [rseAggregateKMIN g1 g2 v1 v2] ∧
        (reduceEntry [AggKind.kMAX] (emuEntry [AggKind.kMAX] g1 k1 [v1])
            (emuEntry [AggKind.kMAX] g2 k2 [v2])).slots =
          [rseAggregateKMAX g1 g2 v1 v2] ∧
        (reduceEntry [AggKind.kSUM] (emuEntry [AggKind.kSUM] g1 k1 [v1])
            (emuEntry [AggKind.kSUM] g2 k2 [v2])).slots =
          [rseAggregateKSUM g1 g2 v1 v2] ∧
        (reduceEntry [AggKind.kCOUNT] (emuEntry [AggKind.kCOUNT] g1 k1 [v1])
            (emuEntry [AggKind.kCOUNT] g2 k2 [v2])).slots =
          [rseAggregateKCOUNT g1 g2 v1 v2]) := by
  refine ⟨reduceEntry_src_empty ts,
    fun dst src hd hs hlen hb => reduceEntry_dst_empty ts dst src hs hd hlen hb,
    reduceEntry_both ts, ?_, ?_⟩
  · intro sa ca sb cb ka kb hka hkb
    rw [reduceEntry_both _ _ _ hka hkb]
    rfl
  · intro g1 g2 hg k1 k2 v1 v2 hk1 hk2 hb1 hb1b hb2 hb2b
    have hv1s : slotsBounded [v1] := by
      intro v hv; simp at hv; subst hv; exact ⟨hb1, hb1b⟩
    have hv2s : slotsBounded [v2] := by
      intro v hv; simp at hv; subst hv; exact ⟨hb2, hb2b⟩
    cases g1 <;> cases g2
    · simp at hg
    · refine ⟨?_, ?_, ?_, ?_⟩ <;>
        (rw [emuEntry_false, emuEntry_true,
              reduceEntry_dst_empty _ _ _ hk2 (by rfl) (by rfl) hv2s];
         simp [rseAggregateKMIN, rseAggregateKMAX, rseAggregateKSUM, rseAggregateKCOUNT])
    · refine ⟨?_, ?_, ?_, ?_⟩ <;>
        (rw [emuEntry_false, emuEntry_true, reduceEntry_src_empty _ _ _ rfl];
         simp [rseAggregateKMIN, rseAggregateKMAX, rseAggregateKSUM, rseAggregateKCOUNT])
    · refine ⟨?_, ?_, ?_, ?_⟩ <;>
        (rw [emuEntry_true, emuEntry_true, reduceEntry_both _ _ _ hk1 hk2];
         simp [combineSlots, combineOne, rseAggregateKMIN, rseAggregateKMAX,
           rseAggregateKSUM, rseAggregateKCOUNT])

/-- C2, witness: MIN of an entry present in both inputs, and the pass-through
of an entry present only in the source. -/
theorem c2_witness :
    (reduceEntry [AggKind.kMIN] (emuEntry [AggKind.kMIN] true 2 [(10 : Int)])
        (emuEntry [AggKind.kMIN] true 2 [(7 : Int)])).slots =
      [rseAggregateKMIN true true 10 7] :=
  ((c2_combination_rules [AggKind.kMIN]).2.2.2.2 true true rfl 2 2 10 7
    (by decide) (by decide) (by decide) (by decide) (by decide) (by decide)).1

/-- C8: reduction is commutative: on equally-shaped well-formed perfect-hash
storages that agree on the key of every index occupied in both (the
perfect-hash invariant), `reduce [a, b] = reduce [b, a]` — same occupied
entries and same aggregated values for every aggregation kind. -/
theorem c8_reduce_comm (ts : List AggKind) :
    ∀ a b : List RSEntry, a.length = b.length →
      WFStorage ts a → WFStorage ts b → alignedKeys a b →
      reduce ts a b = reduce ts b a := by
  intro a
  induction a with
  | nil =>
    intro b hab _ _ _
    cases b with
    | nil => rfl
    | cons y ys => simp at hab
  | cons x xs ih =>
    intro b hab hwa hwb hk
    cases b with
    | nil => simp at hab
    | cons y ys =>
      have hx : WFEntry ts x := hwa x (by simp)
      have hy : WFEntry ts y := hwb y (by simp)
      have hk0 := hk 0
      simp only [List.getD_cons_zero] at hk0
      have htail : alignedKeys xs ys := by
        intro i hxi hyi
        have := hk (i + 1)
        simp only [List.getD_cons_succ] at this
        exact this hxi hyi
      simp only [reduce, List.zipWith_cons_cons]
      rw [reduceEntry_comm ts x y hx hy hk0,
        show List.zipWith (reduceEntry ts) xs ys = reduce ts xs ys from rfl,
        show List.zipWith (reduceEntry ts) ys xs = reduce ts ys xs from rfl,
        ih ys (by simpa using hab) (fun e he => hwa e (by simp [he]))
          (fun e he => hwb e (by simp [he])) htail]

/-- C8, witness: a concrete disjoint-overlap pair commutes. -/
theorem c8_witness :
    reduce [AggKind.kSUM]
        [{ key := 2, slots := [10] }, { key := EMPTY_KEY_64, slots := [kInitSentinel] }]
        [{ key := EMPTY_KEY_64, slots := [kInitSentinel] }, { key := 4, slots := [20] }] =
      reduce [AggKind.kSUM]
        [{ key := EMPTY_KEY_64, slots := [kInitSentinel] }, { key := 4, slots := [20] }]
        [{ key := 2, slots := [10] }, { key := EMPTY_KEY_64, slots := [kInitSentinel] }] :=
  c8_reduce_comm [AggKind.kSUM]
    [{ key := 2, slots := [10] }, { key := EMPTY_KEY_64, slots := [kInitSentinel] }]
    [{ key := EMPTY_KEY_64, slots := [kInitSentinel] }, { key := 4, slots := [20] }]
    rfl (by decide) (by decide)
    (by
      intro i h1 h2
      match i with
      | 0 => exact absurd rfl h2
      | 1 => exact absurd rfl h1
      | n + 2 => exact absurd rfl h1)

/-- C10, witness: two sentinel inputs appended to a fresh encoder leave the
min/max range at its initial extremes and set `has_nulls`. -/
theorem c10_witness :
    encodeDataAndUpdateStats { numElems := 3, dataMin := -5, dataMax := 7, has_nulls := false }
        I32_MIN =
      Except.ok (I32_MIN,
        { numElems := 3, dataMin := -5, dataMax := 7, has_nulls := true }) ∧
    ∃ s2, appendData initEncoder [I32_MIN, I32_MIN] = Except.ok ([I32_MIN, I32_MIN], s2) ∧
      s2.dataMin = I64_MAX ∧ s2.dataMax = I64_MIN ∧
      s2.numElems = [I32_MIN, I32_MIN].length ∧
      ([I32_MIN, I32_MIN] ≠ ([] : List Int) → s2.has_nulls = true) :=
  c10_null_branch_frame _ I32_MIN rfl [I32_MIN, I32_MIN] (by simp)

end OmniSci
